import Mathlib

/-!
Mail.TM-CLI: the account store and the provider client.

A shallow embedding of `src/main.go` (types `Account`, `Storage`, `Client`, and the
function `extractHTML`) together with theorems about the behaviour of the code.

Modelling conventions.

* Go strings are modelled by `String`, that is by well-formed Unicode text, except in the
  last part of the definitions (namespace `Raw`), which is about what a saved accounts
  file reads back as: there a Go string is a sequence of bytes.
* `map[string]Account` is modelled by a finite association list with unique keys
  (`AList`); `m[k] = v` is `AList.insert`, `delete(m, k)` is `AList.erase`, and
  `_, ok := m[k]` is `AList.lookup`. A store records in addition whether its map is the
  nil map, which reads like an empty map but cannot be assigned to.
* A Go result `(v, err)` is modelled by `Except String v`: `.error msg` stands for the
  return `(zero value, errors.New(msg))` and `.ok v` for `(v, nil)`.
* A call that does not return has the result `none`: it panics (an assignment to a nil
  map, a nil request dereferenced), or it waits for an answer of the network that the
  model does not hold.
* The file system, the clock and the remote provider are explicit state. What the
  outside world does (an I/O fault, the answer of the provider and how long it took)
  is an input of the model.
* The functions of `encoding/json` used on the accounts file and on response bodies are
  parameters (`JSONLib`) of the store and of the client. `json.Unmarshal` on the legacy
  file is a reader of JSON text written out here (`unmarshalLegacy`), and in the namespace
  `Raw` the encoder and the decoder of the accounts file are written out as well.
-/

namespace MailTM

/-! ## Strings -/

/-- The function `unicode.IsSpace` of the Go standard library. -/
def isSpace (c : Char) : Bool :=
  let n := c.toNat
  (decide (9 ≤ n) && decide (n ≤ 13)) || n == 32 || n == 0x85 || n == 0xA0 || n == 0x1680 ||
    (decide (0x2000 ≤ n) && decide (n ≤ 0x200a)) || n == 0x2028 || n == 0x2029 || n == 0x202f ||
    n == 0x205f || n == 0x3000

/-- The function `strings.TrimSpace`: leading and trailing white space removed. -/
def TrimSpace (s : String) : String :=
  ⟨((s.data.dropWhile isSpace).reverse.dropWhile isSpace).reverse⟩

/-- The function `strings.Join`. -/
def Join (parts : List String) (sep : String) : String :=
  sep.intercalate parts

/-! ## Decoded JSON values and messages -/

/-- A value of Go type `any` produced by `encoding/json`: `nil`, `bool`, `float64`
(a JSON number, kept as a rational), `string`, `[]any` or `map[string]any`. -/
inductive JSONValue where
  | null : JSONValue
  | bool : Bool → JSONValue
  | number : ℚ → JSONValue
  | string : String → JSONValue
  | array : List JSONValue → JSONValue
  | object : List (String × JSONValue) → JSONValue

/-- The record `type fromObj struct`. -/
structure fromObj where
  Address : String

/-- The record `type message struct`. -/
structure message where
  ID : String
  From : fromObj
  Subject : String
  CreatedAt : String
  HTML : JSONValue
  Text : String
  Seen : Bool

/-! ## Reading JSON text -/

/-- The Go type `map[string]string` into which the legacy file is decoded. -/
abbrev LegacyMap := AList (fun _ : String => String)

/-- JSON white space: space, tab, carriage return, line feed. -/
def isJSONSpace (c : Char) : Bool :=
  c == ' ' || c == '\t' || c == '\r' || c == '\n'

/-- The text after its leading JSON white space. -/
def skipSpace (s : List Char) : List Char :=
  s.dropWhile isJSONSpace

/-- The value of a hexadecimal digit. -/
def hexVal (c : Char) : Option Nat :=
  let n := c.toNat
  if 48 ≤ n ∧ n ≤ 57 then some (n - 48)
  else if 97 ≤ n ∧ n ≤ 102 then some (n - 87)
  else if 65 ≤ n ∧ n ≤ 70 then some (n - 55)
  else none

/-- The number written by the four hexadecimal digits of a `\u` escape. -/
def hex4 (a b c d : Char) : Option Nat :=
  match hexVal a, hexVal b, hexVal c, hexVal d with
  | some x, some y, some z, some w => some (((x * 16 + y) * 16 + z) * 16 + w)
  | _, _, _, _ => none

/-- The character of a `\u` escape that is not a surrogate, and U+FFFD for a surrogate that
is not part of a pair. -/
def escapeChar (u : Nat) : Char :=
  if 0xD800 ≤ u ∧ u ≤ 0xDFFF then Char.ofNat 0xFFFD else Char.ofNat u

/-- The body of a JSON string literal, after the opening quote: the decoded string and the
text after the closing quote; `none` for a literal that is not well formed. `acc` holds
the characters decoded so far, last first. -/
def parseStringBody : Nat → List Char → List Char → Option (String × List Char)
  | 0, _, _ => none
  | _ + 1, _, [] => none
  | fuel + 1, acc, c :: rest =>
    if c = '"' then some (String.mk acc.reverse, rest)
    else if c = '\\' then
      match rest with
      | [] => none
      | e :: rest1 =>
        if e = '"' then parseStringBody fuel ('"' :: acc) rest1
        else if e = '\\' then parseStringBody fuel ('\\' :: acc) rest1
        else if e = '/' then parseStringBody fuel ('/' :: acc) rest1
        else if e = 'b' then parseStringBody fuel (Char.ofNat 8 :: acc) rest1
        else if e = 'f' then parseStringBody fuel (Char.ofNat 12 :: acc) rest1
        else if e = 'n' then parseStringBody fuel ('\n' :: acc) rest1
        else if e = 'r' then parseStringBody fuel ('\r' :: acc) rest1
        else if e = 't' then parseStringBody fuel ('\t' :: acc) rest1
        else if e = 'u' then
          match rest1 with
          | a :: b :: c1 :: d :: rest2 =>
            match hex4 a b c1 d with
            | none => none
            | some u =>
              if 0xD800 ≤ u ∧ u ≤ 0xDBFF then
                match rest2 with
                | '\\' :: 'u' :: a2 :: b2 :: c2 :: d2 :: rest3 =>
                  match hex4 a2 b2 c2 d2 with
                  | some v =>
                    if 0xDC00 ≤ v ∧ v ≤ 0xDFFF then
                      parseStringBody fuel
                        (Char.ofNat (0x10000 + (u - 0xD800) * 0x400 + (v - 0xDC00)) :: acc) rest3
                    else parseStringBody fuel (escapeChar u :: acc) rest2
                  | none => parseStringBody fuel (escapeChar u :: acc) rest2
                | _ => parseStringBody fuel (escapeChar u :: acc) rest2
              else parseStringBody fuel (escapeChar u :: acc) rest2
          | _ => none
        else none
    else if c.toNat < 0x20 then none
    else parseStringBody fuel (c :: acc) rest

/-- Whether a character is a decimal digit. -/
def isDigit (c : Char) : Bool :=
  decide (48 ≤ c.toNat) && decide (c.toNat ≤ 57)

/-- The natural number written by a list of decimal digits. -/
def digitsNat (ds : List Char) : Nat :=
  ds.foldl (fun a c => 10 * a + (c.toNat - 48)) 0

/-- A JSON number literal at the head of the text: its value and the text after it. -/
def parseNumber (s : List Char) : Option (ℚ × List Char) :=
  let neg := s.head? = some '-'
  let s1 := if neg then s.drop 1 else s
  let ip := s1.takeWhile isDigit
  let s2 := s1.dropWhile isDigit
  if ip = [] ∨ (ip.head? = some '0' ∧ ip.length ≠ 1) then none
  else
    let hasFrac := s2.head? = some '.'
    let fp := if hasFrac then (s2.drop 1).takeWhile isDigit else []
    let s3 := if hasFrac then (s2.drop 1).dropWhile isDigit else s2
    if hasFrac ∧ fp = [] then none
    else
      let hasExp := s3.head? = some 'e' ∨ s3.head? = some 'E'
      let s4 := if hasExp then s3.drop 1 else s3
      let eneg := hasExp ∧ s4.head? = some '-'
      let s5 := if hasExp ∧ (s4.head? = some '-' ∨ s4.head? = some '+') then s4.drop 1 else s4
      let ep := if hasExp then s5.takeWhile isDigit else []
      let s6 := if hasExp then s5.dropWhile isDigit else s3
      if hasExp ∧ ep = [] then none
      else
        let mant : ℚ := (digitsNat (ip ++ fp) : ℚ) / (10 : ℚ) ^ fp.length
        let scale : ℚ := if eneg then 1 / (10 : ℚ) ^ digitsNat ep else (10 : ℚ) ^ digitsNat ep
        some ((if neg then -(mant * scale) else mant * scale), s6)

/-- What the parser is reading: a value, the rest of an array, or the rest of an object. -/
inductive ParseMode where
  | value : ParseMode
  | elements : List JSONValue → ParseMode
  | members : List (String × JSONValue) → ParseMode

/-- A JSON value at the head of the text, after optional white space: the value and the text
after it; `none` when the text is not well formed. In the mode `elements acc` the text
stands at an element of an array whose earlier elements are `acc` (last first), in the
mode `members acc` at a member of an object. Two steps in a row read at least one
character, so a budget of twice the length of the text and two more is never used up.
The limit of the library on the nesting depth (10000) is not modelled. -/
def parseJSON : Nat → ParseMode → List Char → Option (JSONValue × List Char)
  | 0, _, _ => none
  | fuel + 1, .value, s =>
    match skipSpace s with
    | [] => none
    | c :: rest =>
      if c = '"' then
        match parseStringBody (rest.length + 1) [] rest with
        | some (str, rest1) => some (.string str, rest1)
        | none => none
      else if c = '[' then
        match skipSpace rest with
        | ']' :: rest1 => some (.array [], rest1)
        | _ => parseJSON fuel (.elements []) rest
      else if c = '\x7b' then
        match skipSpace rest with
        | '\x7d' :: rest1 => some (.object [], rest1)
        | _ => parseJSON fuel (.members []) rest
      else if c = 't' then
        match rest with
        | 'r' :: 'u' :: 'e' :: rest1 => some (.bool true, rest1)
        | _ => none
      else if c = 'f' then
        match rest with
        | 'a' :: 'l' :: 's' :: 'e' :: rest1 => some (.bool false, rest1)
        | _ => none
      else if c = 'n' then
        match rest with
        | 'u' :: 'l' :: 'l' :: rest1 => some (.null, rest1)
        | _ => none
      else
        match parseNumber (c :: rest) with
        | some (q, rest1) => some (.number q, rest1)
        | none => none
  | fuel + 1, .elements acc, s =>
    match parseJSON fuel .value s with
    | none => none
    | some (v, rest) =>
      match skipSpace rest with
      | ',' :: rest1 => parseJSON fuel (.elements (v :: acc)) rest1
      | ']' :: rest1 => some (.array (v :: acc).reverse, rest1)
      | _ => none
  | fuel + 1, .members acc, s =>
    match skipSpace s with
    | '"' :: rest =>
      match parseStringBody (rest.length + 1) [] rest with
      | none => none
      | some (key, rest1) =>
        match skipSpace rest1 with
        | ':' :: rest2 =>
          match parseJSON fuel .value rest2 with
          | none => none
          | some (v, rest3) =>
            match skipSpace rest3 with
            | ',' :: rest4 => parseJSON fuel (.members ((key, v) :: acc)) rest4
            | '\x7d' :: rest4 => some (.object ((key, v) :: acc).reverse, rest4)
            | _ => none
        | _ => none
    | _ => none

/-- The map for `json.Unmarshal(b, &m)` with `m` a nil `map[string]string`, from the decoded
value: `null` leaves the map nil, which reads as empty; an object gives its members, a later
one replacing an earlier one with the same key, where a string is stored as it is and `null`
as the empty string; every other value is an error. -/
def legacyOfJSON : JSONValue → Except String LegacyMap
  | .null => .ok ∅
  | .object members =>
    members.foldlM (fun m kv => match kv.2 with
      | .string str => Except.ok (m.insert kv.1 str)
      | .null => Except.ok (m.insert kv.1 "")
      | _ => Except.error ("json: cannot unmarshal into Go value of type string")) ∅
  | _ => .error "json: cannot unmarshal into Go value of type map[string]string"

/-- The call `json.Unmarshal(b, &m)` of `MigrateFromSingle`: the text must be one JSON value
with nothing but white space around it. -/
def unmarshalLegacy (b : String) : Except String LegacyMap :=
  match parseJSON (2 * b.length + 2) .value b.data with
  | none => .error "invalid character"
  | some (v, rest) =>
    if skipSpace rest = [] then legacyOfJSON v
    else .error "invalid character after top-level value"

/-! ## Storage -/

/-- The record `type Account struct`. -/
structure Account where
  Address : String
  Password : String
  AccountID : String
  Nickname : String
deriving DecidableEq, Repr

deriving instance DecidableEq for Except

/-- The Go type `map[string]Account`. -/
abbrev AccountMap := AList (fun _ : String => Account)

/-- The record `type Storage struct`. `Accounts` is the mapping every read of the field
sees; `IsNil` tells whether the Go value of the field is the nil map, which holds no
record. `NewStorage` and `Load` allocate the map; only a decoded JSON `null` leaves it nil. -/
structure Storage where
  File : String
  Accounts : AccountMap
  IsNil : Bool := false
  nil_empty : IsNil = true → Accounts = ∅ := by intro h; cases h

/-- The Go value of the field `Accounts`: `none` for the nil map. -/
def Storage.goMap (s : Storage) : Option AccountMap :=
  if s.IsNil then none else some s.Accounts

/-- The store with the given file and the given Go value of the field `Accounts`. -/
def Storage.ofGoMap (file : String) : Option AccountMap → Storage
  | none => { File := file, Accounts := ∅, IsNil := true, nil_empty := fun _ => rfl }
  | some m => { File := file, Accounts := m }

/-- The files on disk: path to content. -/
abbrev FS := AList (fun _ : String => String)

/-- The `encoding/json` calls of the program that are parameters of the model; `none` stands
for the nil map. `encodeAccounts m` is the text written by `enc.Encode(s.Accounts)`
(indented; `null` for the nil map); `decodeAccounts text cur` is the outcome of
`dec.Decode(&s.Accounts)` on a file holding `text` when `s.Accounts` is `cur` before the
call (for the text `null` the library sets the map to nil and reports no error).
`decodeMessages` decodes the body of a message-list response into its `hydra:member` list,
`decodeMessage` the body of a single-message response. -/
structure JSONLib where
  encodeAccounts : Option AccountMap → String
  decodeAccounts : String → Option AccountMap → Except String (Option AccountMap)
  decodeMessages : String → Except String (List message)
  decodeMessage : String → Except String message

/-- What the operating system does during one call of `Save`: the error, if any, of
`os.Create`, of the write performed by `enc.Encode`, of `os.Rename`; the text that reached
the temporary file when the write fails; and whether the clean-up `os.Remove` fails. -/
structure SaveFaults where
  createErr : Option String
  encodeErr : Option String
  written : String
  removeFails : Bool
  renameErr : Option String

/-- No fault: every I/O step of `Save` succeeds. -/
def SaveFaults.ok : SaveFaults :=
  { createErr := none, encodeErr := none, written := "", removeFails := false, renameErr := none }

/-- The method `Storage.Load`. `os.Open` succeeds exactly when the file exists. When the
decoding succeeds the map is what the library left in it, the nil map included. -/
def Storage.Load (L : JSONLib) (s : Storage) (fs : FS) : Option String × Storage :=
  match fs.lookup s.File with
  | none => (none, { File := s.File, Accounts := ∅ })
  | some text =>
    match L.decodeAccounts text s.goMap with
    | .error e => (some e, { File := s.File, Accounts := ∅ })
    | .ok m => (none, Storage.ofGoMap s.File m)

/-- The function `NewStorage`. -/
def NewStorage (L : JSONLib) (file : String) (fs : FS) : Storage :=
  (Storage.Load L { File := file, Accounts := ∅ } fs).2

/-- The method `Storage.Save`: returns the error (`none` for `nil`) and the files afterwards. -/
def Storage.Save (L : JSONLib) (io : SaveFaults) (s : Storage) (fs : FS) :
    Option String × FS :=
  let tmp := s.File ++ ".tmp"
  match io.createErr with
  | some e => (some e, fs)
  | none =>
    match io.encodeErr with
    | some e =>
      (some e, if io.removeFails then fs.insert tmp io.written else fs.erase tmp)
    | none =>
      let fs1 := fs.insert tmp (L.encodeAccounts s.goMap)
      match io.renameErr with
      | some e => (some e, fs1)
      | none => (none, (fs1.erase tmp).insert s.File (L.encodeAccounts s.goMap))

/-- The key tried at round `i` of the loop of `Add`: `fmt.Sprintf("%s_%d", key, i)`. -/
def suffixed (key : String) (i : Nat) : String :=
  key ++ "_" ++ toString i

/-- The loop `for i := 1; ; i++` of `Add`, started at `i` and run for at most `fuel` rounds:
the first `suffixed key i` that is not a key of the map; `none` when the rounds run out. -/
def suffixLoop (accounts : AccountMap) (key : String) : Nat → Nat → Option String
  | 0, _ => none
  | fuel + 1, i =>
    if (accounts.lookup (suffixed key i)).isSome then suffixLoop accounts key fuel (i + 1)
    else some (suffixed key i)

/-- The key `Add` starts from (lines 81-85): the nickname, or the address when the nickname
is empty or blank. -/
def baseKey (address nickname : String) : String :=
  if TrimSpace nickname = "" then address else nickname

/-- The key under which `Add` files the record (lines 81-95). The loop is given one round
more than the map has records; `none` would mean the loop did not stop within that budget. -/
def Storage.chooseKey (s : Storage) (address nickname : String) : Option String :=
  let key := baseKey address nickname
  match s.Accounts.lookup key with
  | some acc =>
    if acc.Address ≠ address then suffixLoop s.Accounts key (s.Accounts.entries.length + 1) 1
    else some key
  | none => some key

/-- The method `Storage.Add`: the returned key or error, the store and the files afterwards.
`none` when the call does not return: the assignment `s.Accounts[key] = ...` of line 96
panics on a nil map (or the disambiguation loop does not stop, which `Add_total` excludes). -/
def Storage.Add (L : JSONLib) (io : SaveFaults) (s : Storage) (fs : FS)
    (address password accountID nickname : String) :
    Option (Except String String × Storage × FS) :=
  match s.chooseKey address nickname with
  | none => none
  | some key =>
    if s.IsNil then none
    else
      let s1 : Storage :=
        { File := s.File,
          Accounts := s.Accounts.insert key (Account.mk address password accountID nickname) }
      match Storage.Save L io s1 fs with
      | (some e, fs1) => some (.error e, s1, fs1)
      | (none, fs1) => some (.ok key, s1, fs1)

/-- The method `Storage.Get`. -/
def Storage.Get (s : Storage) (key : String) : Option Account :=
  s.Accounts.lookup key

/-- The method `Storage.Remove`: the returned flag, the store and the files afterwards. The
error of `Save` is dropped, as in the source. -/
def Storage.Remove (L : JSONLib) (io : SaveFaults) (s : Storage) (fs : FS)
    (key : String) : Bool × Storage × FS :=
  match s.Accounts.lookup key with
  | none => (false, s, fs)
  | some _ =>
    let s1 : Storage := { File := s.File, Accounts := s.Accounts.erase key }
    (true, s1, (Storage.Save L io s1 fs).2)

/-- The method `Storage.All`. -/
def Storage.All (s : Storage) : AccountMap :=
  s.Accounts

/-! ## Mail.tm client -/

/-- An `*http.Request` as the program builds it. -/
structure Request where
  Method : String
  URL : String
  Header : List (String × String)
  Body : Option String
deriving DecidableEq, Repr

/-- The part of an `*http.Response` the program reads. -/
structure Response where
  StatusCode : Int
  Body : String
deriving DecidableEq, Repr

/-- One answer of the network to `c.HTTP.Do(req)`: the time the exchange took, in
nanoseconds, and the response or the transport error. -/
structure Reply where
  elapsed : Nat
  result : Except String Response

/-- The world outside the program: the files, the monotonic clock (nanoseconds), the
requests sent so far, and the answers the network will give to the next requests. -/
structure World where
  fs : FS
  now : Nat
  sent : List Request
  replies : List Reply

/-- The record `type Client struct` (the field `HTTP` is the link to `World`). -/
structure Client where
  BaseURL : String
  Token : String
  AccountID : String
  Address : String
  Password : String
  Domain : String
  AccountKey : String
  Store : Storage

/-- The call `c.HTTP.Do(req)`: the request is sent and the next answer of the network is
consumed; `none` when the scripted answers are used up. -/
def httpDo (req : Request) (w : World) : Option (Except String Response × World) :=
  match w.replies with
  | [] => none
  | r :: rest =>
    some (r.result, { w with now := w.now + r.elapsed, sent := w.sent ++ [req], replies := rest })

/-- The test of `net/url` for an ASCII control character. -/
def isCTL (c : Char) : Bool :=
  decide (c.toNat < 0x20) || c.toNat == 0x7f

/-- Whether every `%` of the text starts an escape `%XX` with two hexadecimal digits: the
one test the unescaping of `net/url` makes on a path and on a fragment. -/
def validEscapes : List Char → Bool
  | [] => true
  | c :: rest =>
    if c = '%' then
      match rest with
      | a :: b :: rest1 => (hexVal a).isSome && (hexVal b).isSome && validEscapes rest1
      | _ => false
    else validEscapes rest

/-- Whether `http.NewRequest(method, c.BaseURL+path, body)` of `authReq` returns a request,
for the methods the program uses and for the `BaseURL` `https://api.mail.tm` that
`NewClient`, the only place a client is built, gives every client; `path` starts with `/`.
`url.Parse` then rejects the URL exactly when the part before the first `#` holds an ASCII
control character, or when the path (up to the first `?`) or the fragment (after the first
`#`) holds a `%` that does not start an escape. -/
def requestBuilds (path : String) : Bool :=
  let u := path.data.takeWhile (fun c => c != '#')
  let frag := (path.data.dropWhile (fun c => c != '#')).drop 1
  !(u.any isCTL) && validEscapes (u.takeWhile (fun c => c != '?')) && validEscapes frag

/-- The method `Client.authReq`. `none` when the call panics: the error of
`http.NewRequest` is dropped at line 289 and the nil request is dereferenced at line 290. -/
def Client.authReq (c : Client) (method path : String) (body : Option String) :
    Option (Except String Request) :=
  if c.Token = "" then some (.error "no token; please login first")
  else if requestBuilds path then
    some (.ok { Method := method, URL := c.BaseURL ++ path,
                Header := [("Authorization", "Bearer " ++ c.Token)] ++
                  (if body.isSome then [("Content-Type", "application/json")] else []),
                Body := body })
  else none

/-- The method `Client.GetMessages`. `none` here and in the methods below: the call does
not return, because `authReq` panics or the scripted answers are used up. -/
def Client.GetMessages (L : JSONLib) (c : Client) (w : World) :
    Option (Except String (List message) × Client × World) :=
  match c.authReq "GET" "/messages" none with
  | none => none
  | some (.error e) => some (.error e, c, w)
  | some (.ok req) =>
    match httpDo req w with
    | none => none
    | some (.error e, w1) => some (.error e, c, w1)
    | some (.ok res, w1) =>
      if res.StatusCode ≠ 200 then some (.error ("get messages failed: " ++ res.Body), c, w1)
      else
        match L.decodeMessages res.Body with
        | .error e => some (.error e, c, w1)
        | .ok members => some (.ok members, c, w1)

/-- The method `Client.GetMessage`. -/
def Client.GetMessage (L : JSONLib) (c : Client) (w : World) (id : String) :
    Option (Except String message × Client × World) :=
  match c.authReq "GET" ("/messages/" ++ id) none with
  | none => none
  | some (.error e) => some (.error e, c, w)
  | some (.ok req) =>
    match httpDo req w with
    | none => none
    | some (.error e, w1) => some (.error e, c, w1)
    | some (.ok res, w1) =>
      if res.StatusCode ≠ 200 then some (.error ("get message failed: " ++ res.Body), c, w1)
      else
        match L.decodeMessage res.Body with
        | .error e => some (.error e, c, w1)
        | .ok m => some (.ok m, c, w1)

/-- The method `Client.DeleteMessage`. -/
def Client.DeleteMessage (c : Client) (w : World) (id : String) :
    Option (Except String Unit × Client × World) :=
  match c.authReq "DELETE" ("/messages/" ++ id) none with
  | none => none
  | some (.error e) => some (.error e, c, w)
  | some (.ok req) =>
    match httpDo req w with
    | none => none
    | some (.error e, w1) => some (.error e, c, w1)
    | some (.ok res, w1) =>
      if res.StatusCode ≠ 204 then some (.error ("delete message failed: " ++ res.Body), c, w1)
      else some (.ok (), c, w1)

/-- The method `Client.DeleteAccount`; `io` is what the operating system does if the store
is saved. -/
def Client.DeleteAccount (L : JSONLib) (io : SaveFaults) (c : Client) (w : World)
    (deleteFromStorage : Bool) : Option (Except String Unit × Client × World) :=
  if c.AccountID = "" ∨ c.Token = "" then
    some (.error "no token/account id; please login first", c, w)
  else
    match c.authReq "DELETE" ("/accounts/" ++ c.AccountID) none with
    | none => none
    | some (.error e) => some (.error e, c, w)
    | some (.ok req) =>
      match httpDo req w with
      | none => none
      | some (.error e, w1) => some (.error e, c, w1)
      | some (.ok res, w1) =>
        if res.StatusCode ≠ 204 then
          some (.error ("delete account failed: " ++ res.Body), c, w1)
        else
          let removed : Storage × FS :=
            if deleteFromStorage = true ∧ c.AccountKey ≠ "" then
              (Storage.Remove L io c.Store w1.fs c.AccountKey).2
            else (c.Store, w1.fs)
          some (.ok (),
            { c with Token := "", AccountID := "", Address := "", Password := "",
                     AccountKey := "", Store := removed.1 },
            { w1 with fs := removed.2 })

/-- The loop of `Client.WaitForMessage` (lines 409-420), run for at most `fuel` rounds;
`time.Sleep(interval)` moves the clock by the interval when it is positive. -/
def Client.waitLoop (L : JSONLib) (start : Nat) (timeout interval : Int) :
    Nat → Nat → Client → World → Option (Except String (Option message) × Client × World)
  | 0, _, _, _ => none
  | fuel + 1, last, c, w =>
    if (((w.now - start : Nat) : Int) < timeout) then
      match c.GetMessages L { w with now := w.now + interval.toNat } with
      | none => none
      | some (.error e, c1, w1) => some (.error e, c1, w1)
      | some (.ok cur, c1, w1) =>
        if h : cur.length > last then
          some (.ok (some (cur.get ⟨0, Nat.lt_of_le_of_lt (Nat.zero_le last) h⟩)), c1, w1)
        else Client.waitLoop L start timeout interval fuel cur.length c1 w1
    else some (.ok none, c, w)

/-- The method `Client.WaitForMessage`. Every round of the loop that does not return consumes
one answer of the network, so the loop is given one round more than there are answers;
`none` means the scripted answers were used up before the call returned. -/
def Client.WaitForMessage (L : JSONLib) (c : Client) (w : World) (timeout interval : Int) :
    Option (Except String (Option message) × Client × World) :=
  match c.GetMessages L w with
  | none => none
  | some (.error e, c1, w1) => some (.error e, c1, w1)
  | some (.ok msgs, c1, w1) =>
    Client.waitLoop L w.now timeout interval (w1.replies.length + 1) msgs.length c1 w1

/-- The calls `json.Marshal(v)` then `json.Unmarshal(b, &arr)` with `arr []string` of the
`default` branch of `extractHTML`, on a decoded value: JSON `null` gives the empty slice, an
array gives its elements when each is a string or `null` (which leaves `""`), and every
other value is an error (`none`). -/
def unmarshalStrings : JSONValue → Option (List String)
  | .null => some []
  | .array v =>
    v.mapM fun it => match it with
      | .string str => some str
      | .null => some ""
      | _ => none
  | _ => none

/-- The function `extractHTML` on a decoded payload. -/
def extractHTML (html : JSONValue) : String :=
  match html with
  | .string v => v
  | .array v =>
    Join (v.filterMap fun it => match it with
      | .string str => some str
      | _ => none) "\n"
  | v =>
    match unmarshalStrings v with
    | some arr => Join arr "\n"
    | none => ""

/-- The string elements of a list of decoded values, in their order: what the spec calls
the fragments of a list payload. -/
def stringElements : List JSONValue → List String
  | [] => []
  | .string str :: rest => str :: stringElements rest
  | _ :: rest => stringElements rest

/-- The request sent by `GetMessages` on a client with a token. -/
def pollRequest (c : Client) : Request :=
  { Method := "GET", URL := c.BaseURL ++ "/messages",
    Header := [("Authorization", "Bearer " ++ c.Token)], Body := none }

/-- The mailbox a network answer delivers to `GetMessages`, when the fetch succeeds: no
transport error, status 200 and a body that decodes. -/
def Reply.messages (L : JSONLib) (r : Reply) : Option (List message) :=
  match r.result with
  | .error _ => none
  | .ok res =>
    if res.StatusCode = 200 then
      match L.decodeMessages res.Body with
      | .ok members => some members
      | .error _ => none
    else none

/-- The time one round of the polling loop takes: the sleep, then the fetch. -/
def roundTime (interval : Int) (p : Reply) : Nat :=
  interval.toNat + p.elapsed

/-- The time elapsed since the start of `WaitForMessage` after the initial fetch `r0` and the
polls `polls`. -/
def elapsedAfter (interval : Int) (r0 : Reply) (polls : List Reply) : Nat :=
  r0.elapsed + (polls.map (roundTime interval)).sum

/-- A sample client that is not logged in. -/
def loggedOut : Client :=
  { BaseURL := "https://api.mail.tm", Token := "", AccountID := "", Address := "",
    Password := "", Domain := "", AccountKey := "",
    Store := { File := "email_accounts.json", Accounts := ∅ } }

/-- A sample world with empty disk in which the network has nothing to say. -/
def silentWorld : World :=
  { fs := ∅, now := 0, sent := [], replies := [] }

/-- The arguments of one call of `Add`, with what the operating system does during its `Save`. -/
structure AddCall where
  io : SaveFaults
  address : String
  password : String
  accountID : String
  nickname : String

/-- A sequence of `Add` calls run in order on a store: the results in call order, and the
store and files at the end. -/
def runAdds (L : JSONLib) : Storage → FS → List AddCall →
    Option (List (Except String String) × Storage × FS)
  | s, fs, [] => some ([], s, fs)
  | s, fs, c :: cs =>
    match Storage.Add L c.io s fs c.address c.password c.accountID c.nickname with
    | none => none
    | some (r, s1, fs1) =>
      match runAdds L s1 fs1 cs with
      | none => none
      | some (rs, sN, fsN) => some (r :: rs, sN, fsN)

/-- Every I/O step of `Save` succeeds. -/
def SaveFaults.NoFault (io : SaveFaults) : Prop :=
  io.createErr = none ∧ io.encodeErr = none ∧ io.renameErr = none

/-- Two sample calls: the nickname `bob` is asked for twice, for two different addresses. -/
def sampleCalls : List AddCall :=
  [ { io := SaveFaults.ok, address := "a@x.io", password := "pw", accountID := "id1",
      nickname := "bob" },
    { io := SaveFaults.ok, address := "b@x.io", password := "q", accountID := "id2",
      nickname := "bob" } ]

/-- A sample message. -/
def sampleMessage : message :=
  { ID := "m1", From := { Address := "friend@y.io" }, Subject := "hi",
    CreatedAt := "2024-01-01T00:00:00+00:00", HTML := .array [.string "<p>hi</p>"],
    Text := "hi", Seen := false }

/-- A sample store holding one record under the key `bob`. -/
def sampleStore : Storage :=
  { File := "email_accounts.json"
    Accounts := (∅ : AccountMap).insert "bob" (Account.mk "a@x.io" "pw" "id1" "bob") }

/-- A stand-in for the library parameters in the concrete runs below. None of these runs
reads an accounts file or depends on the text written to it: the stand-in writes the
empty text for every map and finds no JSON value in any accounts file. The body `one`
decodes to a mailbox of one message and every other body to an empty mailbox. -/
def sampleLib : JSONLib :=
  { encodeAccounts := fun _ => ""
    decodeAccounts := fun _ _ => .error "EOF"
    decodeMessages := fun body => if body = "one" then .ok [sampleMessage] else .ok []
    decodeMessage := fun _ => .error "EOF" }

/-- A sample client logged in to the account stored as `bob`. -/
def loggedIn : Client :=
  { BaseURL := "https://api.mail.tm", Token := "tok", AccountID := "id1", Address := "a@x.io",
    Password := "pw", Domain := "x.io", AccountKey := "bob", Store := sampleStore }

/-- A sample world in which the provider answers the next request with status 204. -/
def deletingWorld : World :=
  { fs := ∅, now := 0, sent := [],
    replies := [{ elapsed := 5, result := .ok { StatusCode := 204, Body := "" } }] }

/-- A sample answer of the provider: an empty mailbox, after one time unit. -/
def quietReply : Reply :=
  { elapsed := 1, result := .ok { StatusCode := 200, Body := "none" } }

/-- A sample answer of the provider: a mailbox of one message, after one time unit. -/
def mailReply : Reply :=
  { elapsed := 1, result := .ok { StatusCode := 200, Body := "one" } }

/-- A sample world in which the mailbox stays empty. -/
def quietWorld : World :=
  { fs := ∅, now := 100, sent := [], replies := [quietReply, quietReply, quietReply] }

/-- A sample world in which a message arrives before the second poll. -/
def mailWorld : World :=
  { fs := ∅, now := 100, sent := [], replies := [quietReply, quietReply, mailReply, quietReply] }

/-- The index expression `m[key]` on a `map[string]string`: the empty string when the key is
absent. -/
def legacyField (m : LegacyMap) (key : String) : String :=
  (m.lookup key).getD ""

/-- The method `Storage.MigrateFromSingle`: the returned flag, the store and the files
afterwards. `os.ReadFile` succeeds exactly when the file exists; the result of `Add` is
dropped, as in the source. `none` when `Add` does not return (it panics on a nil map). -/
def Storage.MigrateFromSingle (L : JSONLib) (io : SaveFaults) (s : Storage) (fs : FS) :
    Option (Bool × Storage × FS) :=
  match fs.lookup "email_account.json" with
  | none => some (false, s, fs)
  | some b =>
    match unmarshalLegacy b with
    | .error _ => some (false, s, fs)
    | .ok m =>
      if legacyField m "address" = "" ∨ legacyField m "password" = "" then some (false, s, fs)
      else
        match Storage.Add L io s fs (legacyField m "address") (legacyField m "password")
            (legacyField m "account_id") "Default" with
        | none => none
        | some (_, s1, fs1) => some (true, s1, fs1)

/-- A sample fault: the temporary file cannot be created. -/
def diskFull : SaveFaults :=
  { createErr := some "no space left on device", encodeErr := none, written := "",
    removeFails := false, renameErr := none }

/-- The legacy file content of the migration scenario. -/
def legacyText : String :=
  "\x7b\"address\":\"a@b.c\",\"password\":\"p\",\"account_id\":\"1\"\x7d"

/-- The record written in the legacy file of the migration scenario. -/
def legacyRecord : LegacyMap :=
  (((∅ : LegacyMap).insert "address" "a@b.c").insert "password" "p").insert "account_id" "1"

/-- A sample store whose map is nil, as `Load` leaves it when the library decodes the JSON
text `null`. -/
def nilStore : Storage :=
  Storage.ofGoMap "email_accounts.json" none

/-- A sample disk holding only the legacy file of the migration scenario. -/
def legacyDisk : FS :=
  (∅ : FS).insert "email_account.json" legacyText

/-! ## The accounts file on Go strings as sequences of bytes

The sections above hold a Go string as a `String`, a well-formed text, and leave the calls of
`encoding/json` on the accounts file as parameters. Whether a saved accounts file reads back
as it was saved depends on what the library does with strings that are not well-formed
UTF-8, which a Go string, a sequence of bytes, may be. Here `Save`, `Load` and `NewStorage`
are therefore given once more, in the namespace `Raw`, on Go strings as sequences of bytes,
with the encoder and the decoder of the library written out for `map[string]Account`. -/

/-- One step of reading a Go string the way `utf8.DecodeRuneInString` does: a character read
from a well-formed UTF-8 encoding, or a single byte that does not start one (there the
library reads U+FFFD and moves one byte on). -/
inductive Rune where
  | char : Char → Rune
  | invalid : Nat → Rune
deriving DecidableEq, Repr

/-- A Go string: a sequence of bytes, each a number below 256 (a larger number is no byte
and is read like a byte that starts no encoding). -/
abbrev GoString := List Nat

/-- The UTF-8 encoding of a character. -/
def utf8Bytes (c : Char) : List Nat :=
  let n := c.toNat
  if n < 0x80 then [n]
  else if n < 0x800 then [0xC0 + n / 64, 0x80 + n % 64]
  else if n < 0x10000 then [0xE0 + n / 4096, 0x80 + n / 64 % 64, 0x80 + n % 64]
  else [0xF0 + n / 262144, 0x80 + n / 4096 % 64, 0x80 + n / 64 % 64, 0x80 + n % 64]

/-- The UTF-8 encoding of a list of characters. -/
def utf8 : List Char → GoString
  | [] => []
  | c :: cs => utf8Bytes c ++ utf8 cs

/-- The Go string of a well-formed text. -/
def GoString.ofString (s : String) : GoString :=
  utf8 s.data

/-- Whether a byte is a continuation byte, `0x80` to `0xBF`. -/
def isCont (b : Nat) : Bool :=
  decide (0x80 ≤ b) && decide (b ≤ 0xBF)

/-- The least second byte that `utf8.DecodeRuneInString` accepts after a first byte
(`acceptRanges`): `0xA0` after `0xE0` and `0x90` after `0xF0`, which excludes overlong
encodings, and `0x80` otherwise. -/
def secondLo (b0 : Nat) : Nat :=
  if b0 = 0xE0 then 0xA0 else if b0 = 0xF0 then 0x90 else 0x80

/-- The greatest second byte that `utf8.DecodeRuneInString` accepts after a first byte
(`acceptRanges`): `0x9F` after `0xED`, which excludes the surrogates, `0x8F` after `0xF4`,
which excludes values above U+10FFFF, and `0xBF` otherwise. -/
def secondHi (b0 : Nat) : Nat :=
  if b0 = 0xED then 0x9F else if b0 = 0xF4 then 0x8F else 0xBF

/-- The function `utf8.DecodeRuneInString` on the bytes that are left, when there are some:
the rune read and the bytes after it. A first byte below `0x80` is a character; a first
byte `0xC2`..`0xDF`, `0xE0`..`0xEF` or `0xF0`..`0xF4` starts an encoding of two, three or
four bytes when the bytes that follow are there and in range; in every other case the
first byte alone is read as invalid. -/
def decodeRune : List Nat → Option (Rune × List Nat)
  | [] => none
  | b0 :: rest =>
    if b0 < 0x80 then some (.char (Char.ofNat b0), rest)
    else if 0xC2 ≤ b0 ∧ b0 ≤ 0xDF then
      match rest with
      | b1 :: rest1 =>
        if isCont b1 = true then
          some (.char (Char.ofNat ((b0 - 0xC0) * 64 + (b1 - 0x80))), rest1)
        else some (.invalid b0, rest)
      | _ => some (.invalid b0, rest)
    else if 0xE0 ≤ b0 ∧ b0 ≤ 0xEF then
      match rest with
      | b1 :: b2 :: rest2 =>
        if secondLo b0 ≤ b1 ∧ b1 ≤ secondHi b0 ∧ isCont b2 = true then
          some (.char (Char.ofNat ((b0 - 0xE0) * 4096 + (b1 - 0x80) * 64 + (b2 - 0x80))), rest2)
        else some (.invalid b0, rest)
      | _ => some (.invalid b0, rest)
    else if 0xF0 ≤ b0 ∧ b0 ≤ 0xF4 then
      match rest with
      | b1 :: b2 :: b3 :: rest3 =>
        if secondLo b0 ≤ b1 ∧ b1 ≤ secondHi b0 ∧ isCont b2 = true ∧ isCont b3 = true then
          some (.char (Char.ofNat ((b0 - 0xF0) * 262144 + (b1 - 0x80) * 4096 + (b2 - 0x80) * 64
            + (b3 - 0x80))), rest3)
        else some (.invalid b0, rest)
      | _ => some (.invalid b0, rest)
    else some (.invalid b0, rest)

/-- The runes of a Go string, read one after the other, in at most `fuel` steps. -/
def readRunesAux : Nat → List Nat → List Rune
  | 0, _ => []
  | fuel + 1, bs =>
    match decodeRune bs with
    | none => []
    | some (r, rest) => r :: readRunesAux fuel rest

/-- The runes of a Go string: every step reads at least one byte, so as many steps as there
are bytes reach the end. -/
def readRunes (bs : GoString) : List Rune :=
  readRunesAux bs.length bs

/-- Whether a rune is a character. -/
def Rune.isChar : Rune → Bool
  | .char _ => true
  | .invalid _ => false

/-- The character `encoding/json` reads at a rune: the character itself, or U+FFFD. -/
def Rune.read : Rune → Char
  | .char c => c
  | .invalid _ => Char.ofNat 0xFFFD

/-- Whether a Go string is well-formed UTF-8. -/
def GoString.valid (s : GoString) : Bool :=
  (readRunes s).all Rune.isChar

/-- The text `encoding/json` makes of a Go string: U+FFFD stands for each byte that is not
part of a well-formed encoding. -/
def GoString.text (s : GoString) : String :=
  String.mk ((readRunes s).map Rune.read)

/-- The Go string that comes back when `encoding/json` writes a Go string and reads the
text again. -/
def GoString.coerced (s : GoString) : GoString :=
  GoString.ofString s.text

namespace Raw

/-- The record `type Account struct`, on Go strings. -/
structure Account where
  Address : GoString
  Password : GoString
  AccountID : GoString
  Nickname : GoString
deriving DecidableEq, Repr

/-- The Go type `map[string]Account`, on Go strings. -/
abbrev AccountMap := AList (fun _ : GoString => Account)

/-- The record `type Storage struct`, on Go strings; `none` is the nil map. -/
structure Storage where
  File : String
  Accounts : Option AccountMap

/-- A lower-case hexadecimal digit. -/
def hexDigit (n : Nat) : Char :=
  if n < 10 then Char.ofNat (48 + n) else Char.ofNat (87 + n)

/-- What `appendString` of `encoding/json` writes for one rune, with HTML escaping on (the
default of an `Encoder`). With `short` the characters U+0008 and U+000C are written `\b`
and `\f`, as the library does since Go 1.22; without it they are written `\u0008` and
`\u000c`, as it did before. -/
def escapeRune (short : Bool) : Rune → List Char
  | .invalid _ => ['\\', 'u', 'f', 'f', 'f', 'd']
  | .char c =>
    if c = '"' ∨ c = '\\' then ['\\', c]
    else if c = '\n' then ['\\', 'n']
    else if c = '\r' then ['\\', 'r']
    else if c = '\t' then ['\\', 't']
    else if short = true ∧ c.toNat = 8 then ['\\', 'b']
    else if short = true ∧ c.toNat = 12 then ['\\', 'f']
    else if c.toNat < 0x20 ∨ c = '<' ∨ c = '>' ∨ c = '&' then
      ['\\', 'u', '0', '0', hexDigit (c.toNat / 16), hexDigit (c.toNat % 16)]
    else if c.toNat = 0x2028 ∨ c.toNat = 0x2029 then
      ['\\', 'u', '2', '0', '2', hexDigit (c.toNat % 16)]
    else [c]

/-- The body of the JSON string literal written for a list of runes. -/
def escapeRunes (short : Bool) : List Rune → List Char
  | [] => []
  | r :: rest => escapeRune short r ++ escapeRunes short rest

/-- The JSON string literal written for a Go string, which the encoder reads rune by rune. -/
def quote (short : Bool) (s : GoString) : List Char :=
  '"' :: (escapeRunes short (readRunes s) ++ ['"'])

/-- The text written for one member of an object: a line feed, the indentation, the name,
a colon, a space and the text of the value. -/
def writeMember (short : Bool) (ind : List Char) (m : GoString × List Char) : List Char :=
  '\n' :: (ind ++ (quote short m.1 ++ ':' :: ' ' :: m.2))

/-- The text written for the members of an object after the first: a comma before each. -/
def writeMore (short : Bool) (ind : List Char) : List (GoString × List Char) → List Char
  | [] => []
  | m :: ms => ',' :: (writeMember short ind m ++ writeMore short ind ms)

/-- The text written for an object with the given members, names and value texts, in the
layout of `json.Indent`: `ind` is the indentation of the members and `outer` that of the
closing brace; an object without members is written as the two braces. -/
def writeObject (short : Bool) (ind outer : List Char) :
    List (GoString × List Char) → List Char
  | [] => ['\x7b', '\x7d']
  | m :: ms =>
    '\x7b' :: (writeMember short ind m ++ (writeMore short ind ms ++ '\n' :: (outer ++ ['\x7d'])))

/-- The text written for one record, as a member value of the top-level object, with the
indentation set by `enc.SetIndent("", "  ")`. -/
def encodeAccount (short : Bool) (a : Account) : List Char :=
  writeObject short "    ".data "  ".data
    [(GoString.ofString "address", quote short a.Address),
     (GoString.ofString "password", quote short a.Password),
     (GoString.ofString "account_id", quote short a.AccountID),
     (GoString.ofString "nickname", quote short a.Nickname)]

/-- The order in which `encoding/json` writes the records of a map: by the bytes of their
keys. -/
def keyLE (a b : Sigma fun _ : GoString => Account) : Prop :=
  a.1 ≤ b.1

instance : DecidableRel keyLE := fun a b => inferInstanceAs (Decidable (a.1 ≤ b.1))

/-- The text written by `enc.Encode(s.Accounts)` after `enc.SetIndent("", "  ")`: `null` for
the nil map, and otherwise the object of the records, sorted by key, each record an object
of its four fields; a line feed ends the text. -/
def encodeAccounts (short : Bool) : Option AccountMap → String
  | none => "null\n"
  | some m =>
    String.mk (writeObject short "  ".data []
      ((m.entries.insertionSort keyLE).map fun e => (e.1, encodeAccount short e.2)) ++ ['\n'])

/-- The name of a JSON member as `encoding/json` compares it with the names of the fields
of a struct when no field has exactly that name: without regard to case. Folded here are
the characters that can match a letter of the four field names, which are made of ASCII
letters and `_`: the ASCII letters, U+017F (which folds to `S`) and U+212A (which folds to
`K`); a name with any other character outside ASCII matches no field either way. -/
def foldName (name : String) : List Char :=
  name.data.map fun c =>
    if 97 ≤ c.toNat ∧ c.toNat ≤ 122 then Char.ofNat (c.toNat - 32)
    else if c.toNat = 0x17F then 'S'
    else if c.toNat = 0x212A then 'K'
    else c

/-- One member of a JSON object decoded into an `Account`: a member named as a field sets
that field when its value is a string, leaves it alone when its value is `null`, and is an
error for any other value; a member with another name is skipped. -/
def setField (a : Account) (name : String) (v : JSONValue) : Except String Account :=
  let set (f : GoString → Account) : Except String Account :=
    match v with
    | .string str => .ok (f (GoString.ofString str))
    | .null => .ok a
    | _ => .error "json: cannot unmarshal into Go struct field of type string"
  if foldName name = foldName "address" then set fun x => { a with Address := x }
  else if foldName name = foldName "password" then set fun x => { a with Password := x }
  else if foldName name = foldName "account_id" then set fun x => { a with AccountID := x }
  else if foldName name = foldName "nickname" then set fun x => { a with Nickname := x }
  else .ok a

/-- A JSON value decoded into a fresh `Account`. -/
def decodeAccount : JSONValue → Except String Account
  | .null => .ok ⟨[], [], [], []⟩
  | .object members =>
    members.foldlM (fun a kv => setField a kv.1 kv.2) ⟨[], [], [], []⟩
  | _ => .error "json: cannot unmarshal into Go value of type main.Account"

/-- The outcome of `dec.Decode(&s.Accounts)` on a file holding `text` when `s.Accounts` is
`cur` before the call. The decoder reads the first JSON value of the file and leaves what
follows it unread. `null` sets the map to nil; an object stores each member in the map
(allocated when it was nil), a later member replacing an earlier one with the same key.
When the call reports an error `Load` discards the map, so the map is given only for a
call that reports none. -/
def decodeAccounts (text : String) (cur : Option AccountMap) :
    Except String (Option AccountMap) :=
  match parseJSON (2 * text.length + 2) .value text.data with
  | none => .error "invalid character"
  | some (.null, _) => .ok none
  | some (.object members, _) =>
    match members.foldlM (fun (m : AccountMap) kv =>
        match decodeAccount kv.2 with
        | .ok a => Except.ok (m.insert (GoString.ofString kv.1) a)
        | .error e => Except.error e) (cur.getD ∅) with
    | .ok m => .ok (some m)
    | .error e => .error e
  | some _ => .error "json: cannot unmarshal into Go value of type map[string]main.Account"

/-- The method `Storage.Load`, on Go strings. `os.Open` succeeds exactly when the file
exists. -/
def Storage.Load (s : Storage) (fs : FS) : Option String × Storage :=
  match fs.lookup s.File with
  | none => (none, { File := s.File, Accounts := some ∅ })
  | some text =>
    match decodeAccounts text s.Accounts with
    | .error e => (some e, { File := s.File, Accounts := some ∅ })
    | .ok m => (none, { File := s.File, Accounts := m })

/-- The function `NewStorage`, on Go strings. -/
def NewStorage (file : String) (fs : FS) : Storage :=
  (Storage.Load { File := file, Accounts := some ∅ } fs).2

/-- The method `Storage.Save`, on Go strings: the error (`none` for `nil`) and the files
afterwards. -/
def Storage.Save (short : Bool) (io : SaveFaults) (s : Storage) (fs : FS) :
    Option String × FS :=
  let tmp := s.File ++ ".tmp"
  match io.createErr with
  | some e => (some e, fs)
  | none =>
    match io.encodeErr with
    | some e =>
      (some e, if io.removeFails then fs.insert tmp io.written else fs.erase tmp)
    | none =>
      let fs1 := fs.insert tmp (encodeAccounts short s.Accounts)
      match io.renameErr with
      | some e => (some e, fs1)
      | none => (none, (fs1.erase tmp).insert s.File (encodeAccounts short s.Accounts))

/-- Whether the four fields of a record are well-formed UTF-8. -/
def Account.valid (a : Account) : Bool :=
  a.Address.valid && a.Password.valid && a.AccountID.valid && a.Nickname.valid

/-- Whether every key and every field of every record of a store is well-formed UTF-8. -/
def Storage.valid (s : Storage) : Bool :=
  match s.Accounts with
  | none => true
  | some m => m.entries.all fun e => e.1.valid && e.2.valid

/-- The record that comes back when a record is written and read again. -/
def Account.coerced (a : Account) : Account :=
  ⟨a.Address.coerced, a.Password.coerced, a.AccountID.coerced, a.Nickname.coerced⟩

/-- The JSON value read from the text written for a record. -/
def accountJSON (a : Account) : JSONValue :=
  .object [("address", .string a.Address.text), ("password", .string a.Password.text),
    ("account_id", .string a.AccountID.text), ("nickname", .string a.Nickname.text)]

/-- A text is read as the JSON value `v` with `d` rounds or more, whatever follows it and
whatever white space stands before it. -/
def Parses (d : Nat) (text : List Char) (v : JSONValue) : Prop :=
  ∀ (fuel : Nat) (ws rest : List Char), d ≤ fuel → (∀ x ∈ ws, isJSONSpace x = true) →
    parseJSON fuel .value (ws ++ (text ++ rest)) = some (v, rest)

/-- A sample store on well-formed strings: two records, with characters in keys and fields
that the encoder escapes. -/
def textStore : Storage :=
  { File := "email_accounts.json",
    Accounts := some (((∅ : AccountMap).insert (GoString.ofString "bob")
        ⟨GoString.ofString "a@x.io", GoString.ofString "p\"w\\", GoString.ofString "id1",
          GoString.ofString "bob"⟩).insert (GoString.ofString "al <ice>\n")
        ⟨GoString.ofString "b@x.io", GoString.ofString "q&é", GoString.ofString "",
          GoString.ofString "al <ice>\n"⟩) }

/-- A sample store with one record whose nickname, and so its key, is the single byte
`0xff`, which is not well-formed UTF-8. -/
def byteStore : Storage :=
  { File := "email_accounts.json",
    Accounts := some ((∅ : AccountMap).insert [0xff]
        ⟨GoString.ofString "a@x.io", GoString.ofString "pw", GoString.ofString "id1", [0xff]⟩) }

/-- A sample store with two records, under the keys `0xfe` and `0xff`, each a single byte
that is not well-formed UTF-8. -/
def twoByteStore : Storage :=
  { File := "email_accounts.json",
    Accounts := some (((∅ : AccountMap).insert [0xfe]
        ⟨GoString.ofString "a@x.io", GoString.ofString "pw", GoString.ofString "id1", [0xfe]⟩).insert
      [0xff] ⟨GoString.ofString "b@x.io", GoString.ofString "q", GoString.ofString "id2", [0xff]⟩) }

end Raw

/-- The number written by a list of decimal digits (used to invert `toString`). -/
def digitsVal (ds : List Char) : Nat :=
  ds.foldl (fun a c => 10 * a + (c.toNat - 48)) 0

/-! ## Decimal rendering and the suffixed keys -/

theorem digitChar_val : ∀ k, k < 10 → (Nat.digitChar k).toNat - 48 = k := by decide

theorem toDigitsCore_append (fuel : Nat) : ∀ (n : Nat) (ds : List Char),
    Nat.toDigitsCore 10 fuel n ds = Nat.toDigitsCore 10 fuel n [] ++ ds := by
  induction fuel with
  | zero => intro n ds; simp [Nat.toDigitsCore]
  | succ fuel ih =>
    intro n ds
    simp only [Nat.toDigitsCore]
    by_cases h : n / 10 = 0
    · simp [h]
    · simp only [h, if_false]
      rw [ih (n / 10) (Nat.digitChar (n % 10) :: ds), ih (n / 10) [Nat.digitChar (n % 10)]]
      simp

theorem digitsVal_toDigitsCore (fuel : Nat) : ∀ n, n < fuel →
    digitsVal (Nat.toDigitsCore 10 fuel n []) = n := by
  induction fuel with
  | zero => intro n h; omega
  | succ fuel ih =>
    intro n hn
    simp only [Nat.toDigitsCore]
    by_cases h : n / 10 = 0
    · simp only [h, if_true]
      have h10 : n < 10 := by omega
      simp [digitsVal, Nat.mod_eq_of_lt h10, digitChar_val n h10]
    · simp only [h, if_false]
      rw [toDigitsCore_append]
      have hlt : n / 10 < fuel := by omega
      have := ih (n / 10) hlt
      simp only [digitsVal] at this
      simp only [digitsVal, List.foldl_append, List.foldl_cons, List.foldl_nil, this,
        digitChar_val (n % 10) (Nat.mod_lt _ (by decide))]
      omega

theorem toString_nat_injective {i j : Nat} (h : toString i = toString j) : i = j := by
  have hi : digitsVal (toString i).data = i := by
    show digitsVal (Nat.toDigits 10 i) = i
    exact digitsVal_toDigitsCore (i + 1) i (Nat.lt_succ_self i)
  have hj : digitsVal (toString j).data = j := by
    show digitsVal (Nat.toDigits 10 j) = j
    exact digitsVal_toDigitsCore (j + 1) j (Nat.lt_succ_self j)
  rw [← hi, ← hj, h]

theorem suffixed_injective (key : String) {i j : Nat} (h : suffixed key i = suffixed key j) :
    i = j := by
  unfold suffixed at h
  have hd := congrArg String.data h
  simp only [String.data_append, List.append_cancel_left_eq] at hd
  exact toString_nat_injective (String.ext hd)

/-- Among the first `n + 1` suffixed keys one is not a key of a map with `n` records. -/
theorem exists_free_suffix (m : AccountMap) (key : String) :
    ∃ j, 1 ≤ j ∧ j ≤ m.entries.length + 1 ∧ m.lookup (suffixed key j) = none := by
  by_contra hcon
  push_neg at hcon
  have hsub : (Finset.Icc 1 (m.entries.length + 1)).image (suffixed key) ⊆ m.keys.toFinset := by
    intro k hk
    rcases Finset.mem_image.1 hk with ⟨j, hj, rfl⟩
    rcases Finset.mem_Icc.1 hj with ⟨h1, h2⟩
    have := hcon j h1 h2
    rw [List.mem_toFinset, ← AList.mem_keys]
    by_contra hmem
    exact this (AList.lookup_eq_none.2 hmem)
  have hcard : ((Finset.Icc 1 (m.entries.length + 1)).image (suffixed key)).card
      = m.entries.length + 1 := by
    rw [Finset.card_image_of_injective _ (fun i j h => suffixed_injective key h)]
    simp
  have hle := Finset.card_le_card hsub
  have hk : m.keys.toFinset.card ≤ m.entries.length := by
    calc m.keys.toFinset.card ≤ m.keys.length := List.toFinset_card_le _
      _ = m.entries.length := by simp [AList.keys, List.keys]
  omega

/-- The loop returns the first free suffixed key at or after its start, when that key comes
within the rounds it is given. -/
theorem suffixLoop_eq (m : AccountMap) (key : String) : ∀ (fuel i j : Nat), i ≤ j →
    j < i + fuel → m.lookup (suffixed key j) = none →
    (∀ l, i ≤ l → l < j → (m.lookup (suffixed key l)).isSome) →
    suffixLoop m key fuel i = some (suffixed key j) := by
  intro fuel
  induction fuel with
  | zero => intro i j h1 h2; omega
  | succ fuel ih =>
    intro i j hij hj hfree hocc
    rcases Nat.eq_or_lt_of_le hij with rfl | hlt
    · simp [suffixLoop, hfree]
    · have hi := hocc i le_rfl hlt
      simp only [suffixLoop, hi, if_true]
      exact ih (i + 1) j hlt (by omega) hfree (fun l hl hlj => hocc l (by omega) hlj)

/-- The first free suffix: the least `i ≥ 1` whose suffixed key is not in the map, and the
loop of `Add` finds it within its budget. -/
theorem suffixLoop_budget (m : AccountMap) (key : String) :
    ∃ i, 1 ≤ i ∧ i ≤ m.entries.length + 1 ∧ m.lookup (suffixed key i) = none ∧
      (∀ l, 1 ≤ l → l < i → (m.lookup (suffixed key l)).isSome) ∧
      ∀ fuel, m.entries.length + 1 ≤ fuel → suffixLoop m key fuel 1 = some (suffixed key i) := by
  classical
  have hex : ∃ j, 1 ≤ j ∧ m.lookup (suffixed key j) = none := by
    obtain ⟨j, h1, _, h3⟩ := exists_free_suffix m key
    exact ⟨j, h1, h3⟩
  obtain ⟨j, hj1, hj2, hj3⟩ := exists_free_suffix m key
  refine ⟨Nat.find hex, (Nat.find_spec hex).1,
    le_trans (Nat.find_min' hex ⟨hj1, hj3⟩) hj2, (Nat.find_spec hex).2, ?_, ?_⟩
  · intro l hl hlt
    have := Nat.find_min hex hlt
    simp only [not_and] at this
    cases hlk : m.lookup (suffixed key l) with
    | none => exact absurd hlk (this hl)
    | some _ => rfl
  · intro fuel hfuel
    have hmin : Nat.find hex ≤ j := Nat.find_min' hex ⟨hj1, hj3⟩
    refine suffixLoop_eq m key fuel 1 _ (Nat.find_spec hex).1 (by omega) (Nat.find_spec hex).2 ?_
    intro l hl hlt
    have := Nat.find_min hex hlt
    simp only [not_and] at this
    cases hlk : m.lookup (suffixed key l) with
    | none => exact absurd hlk (this hl)
    | some _ => rfl

/-! ## Storage: `Save` and `Add` -/

/-- The error returned by `Save` is the first fault among create, write and rename. -/
theorem Save_err (L : JSONLib) (io : SaveFaults) (s : Storage) (fs : FS) :
    (Storage.Save L io s fs).1 =
      match io.createErr, io.encodeErr, io.renameErr with
      | some e, _, _ => some e
      | none, some e, _ => some e
      | none, none, r => r := by
  unfold Storage.Save
  rcases io with ⟨c, e, w, r, n⟩
  cases c <;> cases e <;> cases n <;> rfl

/-- What `Add` does once the key is chosen: store the record under it, save, and return the
key unless saving failed. -/
theorem Add_of_chooseKey (L : JSONLib) (io : SaveFaults) (s : Storage) (fs : FS)
    (address password accountID nickname key : String)
    (h : s.chooseKey address nickname = some key) (hnil : s.IsNil = false) :
    Storage.Add L io s fs address password accountID nickname =
      some ((match (Storage.Save L io
                { File := s.File,
                  Accounts := s.Accounts.insert key ⟨address, password, accountID, nickname⟩ }
                fs).1 with
              | none => .ok key
              | some e => .error e),
            { File := s.File,
              Accounts := s.Accounts.insert key ⟨address, password, accountID, nickname⟩ },
            (Storage.Save L io
                { File := s.File,
                  Accounts := s.Accounts.insert key ⟨address, password, accountID, nickname⟩ }
                fs).2) := by
  unfold Storage.Add
  rw [h]
  simp only [hnil, Bool.false_eq_true, if_false]
  rcases hsave : Storage.Save L io
      { File := s.File,
        Accounts := s.Accounts.insert key ⟨address, password, accountID, nickname⟩ }
      fs with ⟨e, fs1⟩
  cases e <;> rfl

/-- A store that holds a record does not have the nil map. -/
theorem not_nil_of_lookup (s : Storage) (k : String) (acc : Account)
    (h : s.Accounts.lookup k = some acc) : s.IsNil = false := by
  cases hn : s.IsNil with
  | false => rfl
  | true =>
    rw [s.nil_empty hn] at h
    cases h

/-- Storing under a key that was free keeps every record that was there. -/
theorem lookup_insert_of_free (m : AccountMap) (key k : String) (v acc : Account)
    (hfree : m.lookup key = none) (hk : m.lookup k = some acc) :
    (m.insert key v).lookup k = some acc := by
  have hne : k ≠ key := by
    rintro rfl
    rw [hfree] at hk
    cases hk
  rw [AList.lookup_insert_ne hne, hk]

/-- C1. When the base key of `Add` is taken by a record with another address, `Add` stops; the
record is filed under the base key followed by `_` and the decimal `i`, for the least
`i ≥ 1` for which that key was not in the store (and `i` is at most the number of records
plus one, far from the range where the counter of the loop could overflow); that key is
the key `Add` returns (it returns it whenever `Save` succeeds, and never returns another;
when `Save` fails `Add` returns the error); and every record held before is still under
its key, unchanged. -/
theorem add_collision_disambiguates (L : JSONLib) (io : SaveFaults) (s : Storage) (fs : FS)
    (address password accountID nickname : String) (old : Account)
    (hold : s.Accounts.lookup (baseKey address nickname) = some old)
    (hne : old.Address ≠ address) :
    ∃ i res s1 fs1,
      Storage.Add L io s fs address password accountID nickname = some (res, s1, fs1) ∧
      1 ≤ i ∧ i ≤ s.Accounts.entries.length + 1 ∧
      (∀ l, 1 ≤ l → l < i →
        (s.Accounts.lookup (baseKey address nickname ++ "_" ++ toString l)).isSome) ∧
      s.Get (baseKey address nickname ++ "_" ++ toString i) = none ∧
      (∀ k, res = .ok k → k = baseKey address nickname ++ "_" ++ toString i) ∧
      (io.NoFault → res = .ok (baseKey address nickname ++ "_" ++ toString i)) ∧
      s1.Get (baseKey address nickname ++ "_" ++ toString i)
        = some ⟨address, password, accountID, nickname⟩ ∧
      (∀ k acc, s.Get k = some acc → s1.Get k = some acc) := by
  obtain ⟨i, hi1, hi2, hfree, hocc, hloop⟩ :=
    suffixLoop_budget s.Accounts (baseKey address nickname)
  have hkey : s.chooseKey address nickname = some (suffixed (baseKey address nickname) i) := by
    unfold Storage.chooseKey
    simp only [hold, hne, ne_eq, not_false_eq_true, if_true]
    exact hloop _ le_rfl
  have hadd := Add_of_chooseKey L io s fs address password accountID nickname _ hkey
    (not_nil_of_lookup s _ old hold)
  refine ⟨i, _, _, _, hadd, hi1, hi2, hocc, hfree, ?_, ?_, ?_, ?_⟩
  · intro k hk
    split at hk
    · cases hk; rfl
    · cases hk
  · rintro ⟨h1, h2, h3⟩
    have herr := Save_err L io
      { File := s.File,
        Accounts := s.Accounts.insert (suffixed (baseKey address nickname) i)
          ⟨address, password, accountID, nickname⟩ } fs
    rw [h1, h2, h3] at herr
    simp only at herr
    rw [herr]
    rfl
  · exact AList.lookup_insert _
  · intro k acc hk
    exact lookup_insert_of_free _ _ _ _ _ hfree hk

/-- C1 at a concrete store: `bob` is taken by `a@x.io`, and `b@x.io` is added as `bob`; the
key returned is `bob_1`, and the new record is filed under it. -/
theorem add_collision_disambiguates_witness :
    sampleStore.Accounts.lookup (baseKey "b@x.io" "bob") = some ⟨"a@x.io", "pw", "id1", "bob"⟩ ∧
    (Account.mk "a@x.io" "pw" "id1" "bob").Address ≠ "b@x.io" ∧
    (∃ i res s1 fs1,
      Storage.Add sampleLib SaveFaults.ok sampleStore ∅ "b@x.io" "q" "id2" "bob"
        = some (res, s1, fs1) ∧
      1 ≤ i ∧ i ≤ sampleStore.Accounts.entries.length + 1 ∧
      (∀ l, 1 ≤ l → l < i →
        (sampleStore.Accounts.lookup (baseKey "b@x.io" "bob" ++ "_" ++ toString l)).isSome) ∧
      sampleStore.Get (baseKey "b@x.io" "bob" ++ "_" ++ toString i) = none ∧
      (∀ k, res = .ok k → k = baseKey "b@x.io" "bob" ++ "_" ++ toString i) ∧
      (SaveFaults.ok.NoFault → res = .ok (baseKey "b@x.io" "bob" ++ "_" ++ toString i)) ∧
      s1.Get (baseKey "b@x.io" "bob" ++ "_" ++ toString i)
        = some ⟨"b@x.io", "q", "id2", "bob"⟩ ∧
      (∀ k acc, sampleStore.Get k = some acc → s1.Get k = some acc)) ∧
    (Storage.Add sampleLib SaveFaults.ok sampleStore ∅ "b@x.io" "q" "id2" "bob").map
      (fun r => (r.1, r.2.1.Get "bob_1", r.2.1.Get "bob"))
      = some (.ok "bob_1", some ⟨"b@x.io", "q", "id2", "bob"⟩,
          some ⟨"a@x.io", "pw", "id1", "bob"⟩) :=
  ⟨by decide, by decide,
    add_collision_disambiguates sampleLib SaveFaults.ok sampleStore ∅ "b@x.io" "q" "id2" "bob"
      ⟨"a@x.io", "pw", "id1", "bob"⟩ (by decide) (by decide),
    by decide⟩

/-! ## Sequences of `Add` -/

/-- The key chosen by `Add` is either free or held by a record with the address added. -/
theorem chooseKey_spec (s : Storage) (address nickname : String) :
    ∃ key, s.chooseKey address nickname = some key ∧
      ∀ acc, s.Accounts.lookup key = some acc → acc.Address = address := by
  cases hb : s.Accounts.lookup (baseKey address nickname) with
  | none =>
    refine ⟨baseKey address nickname, by simp only [Storage.chooseKey, hb], ?_⟩
    intro acc hacc
    rw [hb] at hacc
    cases hacc
  | some old =>
    by_cases hne : old.Address = address
    · refine ⟨baseKey address nickname, by simp [Storage.chooseKey, hb, hne], ?_⟩
      intro acc hacc
      rw [hb] at hacc
      cases hacc
      exact hne
    · obtain ⟨i, _, _, hfree, _, hloop⟩ :=
        suffixLoop_budget s.Accounts (baseKey address nickname)
      refine ⟨suffixed (baseKey address nickname) i, ?_, ?_⟩
      · simp only [Storage.chooseKey, hb, ne_eq, hne, not_false_eq_true, if_true]
        exact hloop _ le_rfl
      · intro acc hacc
        rw [hfree] at hacc
        cases hacc

/-- On the nil map the assignment of `Add` panics: the call does not return. -/
theorem Add_nil (L : JSONLib) (io : SaveFaults) (s : Storage) (fs : FS)
    (address password accountID nickname : String) (hnil : s.IsNil = true) :
    Storage.Add L io s fs address password accountID nickname = none := by
  obtain ⟨key, hkey, _⟩ := chooseKey_spec s address nickname
  simp only [Storage.Add, hkey, hnil, if_true]

/-- A call of `Add` that returns was made on a store whose map is not nil. -/
theorem not_nil_of_Add (L : JSONLib) (io : SaveFaults) (s : Storage) (fs : FS)
    (address password accountID nickname : String)
    (r : Except String String × Storage × FS)
    (h : Storage.Add L io s fs address password accountID nickname = some r) :
    s.IsNil = false := by
  cases hn : s.IsNil with
  | false => rfl
  | true =>
    rw [Add_nil L io s fs address password accountID nickname hn] at h
    cases h

/-- On a store whose map is not nil `Add` always stops, and files the record under the key
it chose. -/
theorem Add_total (L : JSONLib) (io : SaveFaults) (s : Storage) (fs : FS)
    (address password accountID nickname : String) (hnil : s.IsNil = false) :
    ∃ key res fs1,
      s.chooseKey address nickname = some key ∧
      (∀ acc, s.Accounts.lookup key = some acc → acc.Address = address) ∧
      Storage.Add L io s fs address password accountID nickname =
        some (res, { File := s.File, Accounts := s.Accounts.insert key ⟨address, password, accountID, nickname⟩ },
          fs1) ∧
      (∀ k, res = .ok k → k = key) ∧
      (io.NoFault → res = .ok key) := by
  obtain ⟨key, hkey, hsame⟩ := chooseKey_spec s address nickname
  refine ⟨key, _, _, hkey, hsame,
    Add_of_chooseKey L io s fs address password accountID nickname key hkey hnil, ?_, ?_⟩
  · intro k hk
    split at hk
    · cases hk; rfl
    · cases hk
  · rintro ⟨h1, h2, h3⟩
    have herr := Save_err L io
      { File := s.File, Accounts := s.Accounts.insert key ⟨address, password, accountID, nickname⟩ } fs
    rw [h1, h2, h3] at herr
    simp only at herr
    rw [herr]

/-- One `Add` keeps, under every key already in use, a record with the same address. -/
theorem Add_keeps_address (L : JSONLib) (io : SaveFaults) (s : Storage) (fs : FS)
    (address password accountID nickname : String) (res : Except String String)
    (s1 : Storage) (fs1 : FS)
    (h : Storage.Add L io s fs address password accountID nickname = some (res, s1, fs1))
    (k : String) (acc : Account) (hk : s.Get k = some acc) :
    ∃ acc1, s1.Get k = some acc1 ∧ acc1.Address = acc.Address := by
  obtain ⟨key, res0, fs0, _, hsame, hadd, _, _⟩ :=
    Add_total L io s fs address password accountID nickname
      (not_nil_of_Add L io s fs address password accountID nickname _ h)
  rw [hadd] at h
  simp only [Option.some.injEq, Prod.mk.injEq] at h
  obtain ⟨_, rfl, _⟩ := h
  by_cases hkk : k = key
  · subst hkk
    refine ⟨⟨address, password, accountID, nickname⟩, AList.lookup_insert _, ?_⟩
    exact (hsame acc hk).symm
  · exact ⟨acc, by simp only [Storage.Get]; rw [AList.lookup_insert_ne hkk]; exact hk, rfl⟩

/-- A successful `Add` leaves, under the key it returns, a record with the address added. -/
theorem Add_ok_stored (L : JSONLib) (io : SaveFaults) (s : Storage) (fs : FS)
    (address password accountID nickname : String) (k : String)
    (s1 : Storage) (fs1 : FS)
    (h : Storage.Add L io s fs address password accountID nickname = some (.ok k, s1, fs1)) :
    s1.Get k = some ⟨address, password, accountID, nickname⟩ := by
  obtain ⟨key, res0, fs0, _, _, hadd, hres, _⟩ :=
    Add_total L io s fs address password accountID nickname
      (not_nil_of_Add L io s fs address password accountID nickname _ h)
  rw [hadd] at h
  simp only [Option.some.injEq, Prod.mk.injEq] at h
  obtain ⟨hr, rfl, _⟩ := h
  have := hres k hr
  subst this
  exact AList.lookup_insert _

/-- A run of `Add` calls on a store whose map is not nil always finishes, with one result
per call. -/
theorem runAdds_total (L : JSONLib) : ∀ (calls : List AddCall) (s : Storage) (fs : FS),
    s.IsNil = false →
    ∃ rs sN fsN, runAdds L s fs calls = some (rs, sN, fsN) ∧ rs.length = calls.length ∧
      ((∀ c ∈ calls, c.io.NoFault) → ∀ r ∈ rs, ∃ k, r = .ok k) := by
  intro calls
  induction calls with
  | nil => intro s fs _; exact ⟨[], s, fs, rfl, rfl, by simp⟩
  | cons c cs ih =>
    intro s fs hnil
    obtain ⟨key, res, fs1, _, _, hadd, _, hok⟩ :=
      Add_total L c.io s fs c.address c.password c.accountID c.nickname hnil
    obtain ⟨rs, sN, fsN, hrun, hlen, hall⟩ := ih
      { File := s.File,
        Accounts := s.Accounts.insert key ⟨c.address, c.password, c.accountID, c.nickname⟩ }
      fs1 rfl
    refine ⟨res :: rs, sN, fsN, ?_, by simp [hlen], ?_⟩
    · simp only [runAdds, hadd, hrun]
    · intro hc r hr
      rcases List.mem_cons.1 hr with rfl | hr
      · exact ⟨key, hok (hc c (List.mem_cons_self _ _))⟩
      · exact hall (fun c1 hc1 => hc c1 (List.mem_cons_of_mem _ hc1)) r hr

/-- A run of `Add` calls keeps, under every key already in use, a record with the same
address. -/
theorem runAdds_keeps_address (L : JSONLib) : ∀ (calls : List AddCall) (s : Storage) (fs : FS)
    (rs : List (Except String String)) (sN : Storage) (fsN : FS),
    runAdds L s fs calls = some (rs, sN, fsN) →
    ∀ (k : String) (acc : Account), s.Get k = some acc →
      ∃ accN, sN.Get k = some accN ∧ accN.Address = acc.Address := by
  intro calls
  induction calls with
  | nil =>
    intro s fs rs sN fsN h k acc hk
    simp only [runAdds, Option.some.injEq, Prod.mk.injEq] at h
    obtain ⟨_, rfl, _⟩ := h
    exact ⟨acc, hk, rfl⟩
  | cons c cs ih =>
    intro s fs rs sN fsN h k acc hk
    simp only [runAdds] at h
    cases hadd : Storage.Add L c.io s fs c.address c.password c.accountID c.nickname with
    | none => rw [hadd] at h; cases h
    | some t =>
      obtain ⟨r, s1, fs1⟩ := t
      rw [hadd] at h
      simp only at h
      cases hrun : runAdds L s1 fs1 cs with
      | none => rw [hrun] at h; cases h
      | some u =>
        obtain ⟨rs1, sM, fsM⟩ := u
        rw [hrun] at h
        simp only [Option.some.injEq, Prod.mk.injEq] at h
        obtain ⟨_, rfl, _⟩ := h
        obtain ⟨acc1, hk1, ha1⟩ := Add_keeps_address L c.io s fs _ _ _ _ r s1 fs1 hadd k acc hk
        obtain ⟨accN, hkN, haN⟩ := ih s1 fs1 rs1 sM fsM hrun k acc1 hk1
        exact ⟨accN, hkN, haN.trans ha1⟩

/-- At the end of a run, the key returned by each successful call holds a record with the
address given to that call. -/
theorem runAdds_ok_stored (L : JSONLib) : ∀ (calls : List AddCall) (s : Storage) (fs : FS)
    (rs : List (Except String String)) (sN : Storage) (fsN : FS),
    runAdds L s fs calls = some (rs, sN, fsN) →
    ∀ (c : AddCall) (k : String), (c, Except.ok k) ∈ calls.zip rs →
      ∃ accN, sN.Get k = some accN ∧ accN.Address = c.address := by
  intro calls
  induction calls with
  | nil =>
    intro s fs rs sN fsN _ c k hmem
    simp at hmem
  | cons c0 cs ih =>
    intro s fs rs sN fsN h c k hmem
    simp only [runAdds] at h
    cases hadd : Storage.Add L c0.io s fs c0.address c0.password c0.accountID c0.nickname with
    | none => rw [hadd] at h; cases h
    | some t =>
      obtain ⟨r, s1, fs1⟩ := t
      rw [hadd] at h
      simp only at h
      cases hrun : runAdds L s1 fs1 cs with
      | none => rw [hrun] at h; cases h
      | some u =>
        obtain ⟨rs1, sM, fsM⟩ := u
        rw [hrun] at h
        simp only [Option.some.injEq, Prod.mk.injEq] at h
        obtain ⟨rfl, rfl, _⟩ := h
        simp only [List.zip_cons_cons, List.mem_cons, Prod.mk.injEq] at hmem
        rcases hmem with ⟨rfl, rfl⟩ | hmem
        · have hst := Add_ok_stored L c.io s fs _ _ _ _ k s1 fs1 hadd
          obtain ⟨accN, hkN, haN⟩ := runAdds_keeps_address L cs s1 fs1 rs1 sM fsM hrun k _ hst
          exact ⟨accN, hkN, haN⟩
        · exact ih s1 fs1 rs1 sM fsM hrun c k hmem

/-- Results that are all successes are the successes of a list of keys. -/
theorem all_ok_eq_map (rs : List (Except String String)) (h : ∀ r ∈ rs, ∃ k, r = Except.ok k) :
    ∃ keys : List String, rs = keys.map Except.ok := by
  induction rs with
  | nil => exact ⟨[], rfl⟩
  | cons r rs ih =>
    obtain ⟨k, rfl⟩ := h r (List.mem_cons_self _ _)
    obtain ⟨ks, rfl⟩ := ih (fun r1 hr1 => h r1 (List.mem_cons_of_mem _ hr1))
    exact ⟨k :: ks, rfl⟩

/-- C2. For every sequence of `Add` calls on an initially empty store in which every call
succeeds (no `Remove` in between): the run finishes with one key per call; at the end the
store maps the key returned by each call to a record with the address given to that call
(so `Get` finds a record by that key); and two calls with different addresses never return
the same key. -/
theorem adds_keys_hold_their_address (L : JSONLib) (file : String) (fs : FS)
    (calls : List AddCall) (hok : ∀ c ∈ calls, c.io.NoFault) :
    ∃ keys sN fsN,
      runAdds L { File := file, Accounts := ∅ } fs calls = some (keys.map Except.ok, sN, fsN) ∧
      keys.length = calls.length ∧
      (∀ c k, (c, k) ∈ calls.zip keys →
        ∃ acc, sN.Get k = some acc ∧ acc.Address = c.address) ∧
      (∀ c k c1 k1, (c, k) ∈ calls.zip keys → (c1, k1) ∈ calls.zip keys →
        c.address ≠ c1.address → k ≠ k1) := by
  obtain ⟨rs, sN, fsN, hrun, hlen, hall⟩ :=
    runAdds_total L calls { File := file, Accounts := ∅ } fs rfl
  obtain ⟨keys, rfl⟩ := all_ok_eq_map rs (hall hok)
  have hstored : ∀ c k, (c, k) ∈ calls.zip keys →
      ∃ acc, sN.Get k = some acc ∧ acc.Address = c.address := by
    intro c k hmem
    refine runAdds_ok_stored L calls _ fs _ sN fsN hrun c k ?_
    rw [List.zip_map_right]
    exact List.mem_map.2 ⟨(c, k), hmem, rfl⟩
  refine ⟨keys, sN, fsN, hrun, by simpa using hlen, hstored, ?_⟩
  intro c k c1 k1 h h1 hne hkk
  subst hkk
  obtain ⟨acc, hg, ha⟩ := hstored c k h
  obtain ⟨acc1, hg1, ha1⟩ := hstored c1 k h1
  rw [hg] at hg1
  cases hg1
  exact hne (ha.symm.trans ha1)

/-- C2 on two calls that ask for the same nickname with different addresses. -/
theorem adds_keys_hold_their_address_witness :
    (∀ c ∈ sampleCalls, c.io.NoFault) ∧
    ∃ keys sN fsN,
      runAdds sampleLib { File := "email_accounts.json", Accounts := ∅ } ∅ sampleCalls
        = some (keys.map Except.ok, sN, fsN) ∧
      keys.length = sampleCalls.length ∧
      (∀ c k, (c, k) ∈ sampleCalls.zip keys →
        ∃ acc, sN.Get k = some acc ∧ acc.Address = c.address) ∧
      (∀ c k c1 k1, (c, k) ∈ sampleCalls.zip keys → (c1, k1) ∈ sampleCalls.zip keys →
        c.address ≠ c1.address → k ≠ k1) :=
  have h : ∀ c ∈ sampleCalls, c.io.NoFault := by
    intro c hc
    simp only [sampleCalls, List.mem_cons, List.mem_singleton, List.not_mem_nil, or_false] at hc
    rcases hc with rfl | rfl <;> exact ⟨rfl, rfl, rfl⟩
  ⟨h, adds_keys_hold_their_address sampleLib "email_accounts.json" ∅ sampleCalls h⟩

/-! ## The key of `Add` without collision, and overwriting in place -/

/-- The test `strings.TrimSpace(key) == ""` holds exactly for the empty string and for
strings made of white space only. -/
theorem TrimSpace_eq_empty_iff (t : String) :
    TrimSpace t = "" ↔ ∀ c ∈ t.data, isSpace c = true := by
  have hdata : TrimSpace t = "" ↔
      ((t.data.dropWhile isSpace).reverse.dropWhile isSpace).reverse = [] := by
    constructor
    · intro h
      exact congrArg String.data h
    · intro h
      exact String.ext h
  rw [hdata, List.reverse_eq_nil_iff, List.dropWhile_eq_nil_iff]
  constructor
  · intro h
    have hnil : t.data.dropWhile isSpace = [] := by
      by_contra hne
      have hhead := List.head_dropWhile_not isSpace t.data hne
      have hmem : (t.data.dropWhile isSpace).head hne ∈ (t.data.dropWhile isSpace).reverse :=
        List.mem_reverse.2 (List.head_mem hne)
      rw [h _ hmem] at hhead
      cases hhead
    exact List.dropWhile_eq_nil_iff.1 hnil
  · intro h x hx
    have hnil : t.data.dropWhile isSpace = [] := List.dropWhile_eq_nil_iff.2 h
    rw [hnil] at hx
    simp at hx

/-- Overwriting the record of a key already in the map keeps the number of records. -/
theorem length_insert_of_mem (m : AccountMap) (key : String) (v old : Account)
    (h : m.lookup key = some old) :
    (m.insert key v).entries.length = m.entries.length := by
  have hmem : key ∈ m.entries.keys := by
    have : key ∈ m := AList.lookup_isSome.1 (by rw [h]; rfl)
    exact AList.mem_keys.1 this
  obtain ⟨b, l1, l2, _, hl, hk⟩ := List.exists_of_kerase hmem
  rw [AList.insert_entries, hk, hl]
  simp only [List.length_cons, List.length_append]
  omega

/-- C3, as the code has it. On a store whose map is not nil and in which no collision occurs
(the base key is free, or held by a record with the address added): `Add` stops and files
the record under the address when the nickname is empty or white space only, and otherwise
under the nickname exactly as passed, not trimmed; that key is the key `Add` returns (it
returns it whenever `Save` succeeds, and never returns another). Nothing is said here of a
store whose map is nil. -/
theorem add_key_without_collision (L : JSONLib) (io : SaveFaults) (s : Storage) (fs : FS)
    (address password accountID nickname : String)
    (hmap : s.IsNil = false)
    (hfree : ∀ acc, s.Accounts.lookup (if TrimSpace nickname = "" then address else nickname)
      = some acc → acc.Address = address) :
    ∃ key res s1 fs1,
      Storage.Add L io s fs address password accountID nickname = some (res, s1, fs1) ∧
      ((∀ c ∈ nickname.data, isSpace c = true) → key = address) ∧
      ((∃ c ∈ nickname.data, isSpace c = false) → key = nickname) ∧
      (∀ k, res = .ok k → k = key) ∧
      (io.NoFault → res = .ok key) ∧
      s1.Get key = some ⟨address, password, accountID, nickname⟩ := by
  have hkey : s.chooseKey address nickname = some (baseKey address nickname) := by
    cases hb : s.Accounts.lookup (baseKey address nickname) with
    | none => simp only [Storage.chooseKey, hb]
    | some old =>
      have := hfree old hb
      simp [Storage.chooseKey, hb, this]
  obtain ⟨key, res, fs1, hk, _, hadd, hres, hok⟩ :=
    Add_total L io s fs address password accountID nickname hmap
  rw [hkey] at hk
  cases hk
  refine ⟨baseKey address nickname, res, _, fs1, hadd, ?_, ?_, hres, hok, AList.lookup_insert _⟩
  · intro hblank
    simp [baseKey, (TrimSpace_eq_empty_iff nickname).2 hblank]
  · rintro ⟨c, hc, hns⟩
    have : TrimSpace nickname ≠ "" := by
      intro h
      rw [(TrimSpace_eq_empty_iff nickname).1 h c hc] at hns
      cases hns
    simp [baseKey, this]

/-- C3 evaluated twice: on a blank nickname and an empty store, where the key is the address;
and on the nickname `" bob "` and the sample store, where the key is `" bob "` as passed,
beside the record of `bob`. -/
theorem add_key_without_collision_witness :
    (({ File := "email_accounts.json", Accounts := ∅ } : Storage).IsNil = false ∧
      (∀ acc, (∅ : AccountMap).lookup (if TrimSpace "  " = "" then "a@x.io" else "  ")
        = some acc → acc.Address = "a@x.io") ∧
      ∃ key res s1 fs1,
        Storage.Add sampleLib SaveFaults.ok { File := "email_accounts.json", Accounts := ∅ } ∅
          "a@x.io" "pw" "id1" "  " = some (res, s1, fs1) ∧
        ((∀ c ∈ "  ".data, isSpace c = true) → key = "a@x.io") ∧
        ((∃ c ∈ "  ".data, isSpace c = false) → key = "  ") ∧
        (∀ k, res = .ok k → k = key) ∧
        (SaveFaults.ok.NoFault → res = .ok key) ∧
        s1.Get key = some ⟨"a@x.io", "pw", "id1", "  "⟩) ∧
    (sampleStore.IsNil = false ∧
      (∀ acc, sampleStore.Accounts.lookup
          (if TrimSpace " bob " = "" then "b@x.io" else " bob ") = some acc →
        acc.Address = "b@x.io") ∧
      ∃ key res s1 fs1,
        Storage.Add sampleLib SaveFaults.ok sampleStore ∅ "b@x.io" "q" "id2" " bob "
          = some (res, s1, fs1) ∧
        ((∀ c ∈ " bob ".data, isSpace c = true) → key = "b@x.io") ∧
        ((∃ c ∈ " bob ".data, isSpace c = false) → key = " bob ") ∧
        (∀ k, res = .ok k → k = key) ∧
        (SaveFaults.ok.NoFault → res = .ok key) ∧
        s1.Get key = some ⟨"b@x.io", "q", "id2", " bob "⟩) ∧
    (Storage.Add sampleLib SaveFaults.ok { File := "email_accounts.json", Accounts := ∅ } ∅
        "a@x.io" "pw" "id1" "  ").map (fun r => r.1) = some (.ok "a@x.io") ∧
    (Storage.Add sampleLib SaveFaults.ok sampleStore ∅ "b@x.io" "q" "id2" " bob ").map
      (fun r => (r.1, r.2.1.Get " bob ", r.2.1.Get "bob"))
      = some (.ok " bob ", some ⟨"b@x.io", "q", "id2", " bob "⟩,
          some ⟨"a@x.io", "pw", "id1", "bob"⟩) :=
  have hfree2 : ∀ acc, sampleStore.Accounts.lookup
      (if TrimSpace " bob " = "" then "b@x.io" else " bob ") = some acc →
      acc.Address = "b@x.io" := by
    intro acc h
    have hnone : sampleStore.Accounts.lookup
        (if TrimSpace " bob " = "" then "b@x.io" else " bob ") = none := by decide
    rw [hnone] at h
    cases h
  ⟨⟨rfl, (by intro acc h; cases h),
      add_key_without_collision sampleLib SaveFaults.ok
        { File := "email_accounts.json", Accounts := ∅ } ∅ "a@x.io" "pw" "id1" "  " rfl
        (by intro acc h; cases h)⟩,
    ⟨rfl, hfree2,
      add_key_without_collision sampleLib SaveFaults.ok sampleStore ∅ "b@x.io" "q" "id2" " bob "
        rfl hfree2⟩,
    (by decide), (by decide)⟩

/-- C3 as stated fails: on an empty store (no collision) the nickname `" bob "` is not blank,
every step of `Save` succeeds, and `Add` returns the key `" bob "`, which is not the
trimmed nickname `"bob"`. -/
theorem add_key_not_trimmed :
    (∅ : AccountMap).lookup " bob " = none ∧ (∅ : AccountMap).lookup "bob" = none ∧
    TrimSpace " bob " = "bob" ∧
    (Storage.Add sampleLib SaveFaults.ok { File := "email_accounts.json", Accounts := ∅ } ∅
        "a@x.io" "pw" "id1" " bob ").map (fun r => r.1) = some (.ok " bob ") ∧
    " bob " ≠ TrimSpace " bob " := by
  decide

/-- C4. When the base key of `Add` is held by a record with the same address: `Add` stops; the
key it returns is that same key (it returns it whenever `Save` succeeds, and never returns
another); the record under the key now holds the password, account id and nickname of the
call; the number of records is unchanged; and every other record is unchanged. -/
theorem add_same_address_overwrites (L : JSONLib) (io : SaveFaults) (s : Storage) (fs : FS)
    (address password accountID nickname : String) (old : Account)
    (hold : s.Accounts.lookup (baseKey address nickname) = some old)
    (hsame : old.Address = address) :
    ∃ res s1 fs1,
      Storage.Add L io s fs address password accountID nickname = some (res, s1, fs1) ∧
      (∀ k, res = .ok k → k = baseKey address nickname) ∧
      (io.NoFault → res = .ok (baseKey address nickname)) ∧
      s1.Get (baseKey address nickname) = some ⟨address, password, accountID, nickname⟩ ∧
      s1.Accounts.entries.length = s.Accounts.entries.length ∧
      (∀ k, k ≠ baseKey address nickname → s1.Get k = s.Get k) := by
  have hkey : s.chooseKey address nickname = some (baseKey address nickname) := by
    simp [Storage.chooseKey, hold, hsame]
  obtain ⟨key, res, fs1, hk, _, hadd, hres, hok⟩ :=
    Add_total L io s fs address password accountID nickname (not_nil_of_lookup s _ old hold)
  rw [hkey] at hk
  cases hk
  refine ⟨res, _, fs1, hadd, hres, hok, AList.lookup_insert _,
    length_insert_of_mem _ _ _ old hold, ?_⟩
  intro k hne
  simp only [Storage.Get]
  exact AList.lookup_insert_ne hne

/-- C4 at a concrete store: the record of `bob` is saved again with a new password. -/
theorem add_same_address_overwrites_witness :
    sampleStore.Accounts.lookup (baseKey "a@x.io" "bob") = some ⟨"a@x.io", "pw", "id1", "bob"⟩ ∧
    (Account.mk "a@x.io" "pw" "id1" "bob").Address = "a@x.io" ∧
    ∃ res s1 fs1,
      Storage.Add sampleLib SaveFaults.ok sampleStore ∅ "a@x.io" "new" "id9" "bob"
        = some (res, s1, fs1) ∧
      (∀ k, res = .ok k → k = baseKey "a@x.io" "bob") ∧
      (SaveFaults.ok.NoFault → res = .ok (baseKey "a@x.io" "bob")) ∧
      s1.Get (baseKey "a@x.io" "bob") = some ⟨"a@x.io", "new", "id9", "bob"⟩ ∧
      s1.Accounts.entries.length = sampleStore.Accounts.entries.length ∧
      (∀ k, k ≠ baseKey "a@x.io" "bob" → s1.Get k = sampleStore.Get k) :=
  ⟨by decide, by decide,
    add_same_address_overwrites sampleLib SaveFaults.ok sampleStore ∅ "a@x.io" "new" "id9" "bob"
      ⟨"a@x.io", "pw", "id1", "bob"⟩ (by decide) (by decide)⟩

/-! ## `Remove` -/

/-- C5. `Remove(key)` returns true exactly when the key was present; when the key is absent it
returns false and leaves the mapping (and the files) unchanged; after a call the key is
absent; and a second call right after the first returns false and changes nothing, so the
state after two calls is the state after one. -/
theorem remove_idempotent (L : JSONLib) (io io2 : SaveFaults) (s : Storage) (fs : FS)
    (key : String) :
    ((Storage.Remove L io s fs key).1 = true ↔ (s.Get key).isSome = true) ∧
    (s.Get key = none → Storage.Remove L io s fs key = (false, s, fs)) ∧
    (Storage.Remove L io s fs key).2.1.Get key = none ∧
    Storage.Remove L io2 (Storage.Remove L io s fs key).2.1 (Storage.Remove L io s fs key).2.2 key
      = (false, (Storage.Remove L io s fs key).2.1, (Storage.Remove L io s fs key).2.2) := by
  have hafter : (Storage.Remove L io s fs key).2.1.Get key = none := by
    unfold Storage.Remove Storage.Get
    cases h : s.Accounts.lookup key with
    | none => simpa using h
    | some acc => simp
  refine ⟨?_, ?_, hafter, ?_⟩
  · unfold Storage.Remove Storage.Get
    cases h : s.Accounts.lookup key <;> simp
  · intro h
    unfold Storage.Get at h
    unfold Storage.Remove
    rw [h]
  · unfold Storage.Get at hafter
    revert hafter
    generalize Storage.Remove L io s fs key = r
    intro hafter
    unfold Storage.Remove
    rw [hafter]

/-! ## Operations that need a token -/

/-- Without a token `authReq` builds no request. -/
theorem authReq_no_token (c : Client) (method path : String) (body : Option String)
    (h : c.Token = "") :
    c.authReq method path body = some (.error "no token; please login first") := by
  simp [Client.authReq, h]

/-- With a token and a path that `http.NewRequest` accepts, `authReq` builds the request. -/
theorem authReq_token (c : Client) (method path : String) (h : c.Token ≠ "")
    (hpath : requestBuilds path = true) :
    c.authReq method path none =
      some (.ok { Method := method, URL := c.BaseURL ++ path,
                  Header := [("Authorization", "Bearer " ++ c.Token)], Body := none }) := by
  simp [Client.authReq, h, hpath]

/-- With a token and a path that `http.NewRequest` rejects, `authReq` panics. -/
theorem authReq_panics (c : Client) (method path : String) (body : Option String)
    (h : c.Token ≠ "") (hpath : requestBuilds path = false) :
    c.authReq method path body = none := by
  simp [Client.authReq, h, hpath]

/-- The path of the mailbox request is accepted by `http.NewRequest`. -/
theorem requestBuilds_messages : requestBuilds "/messages" = true := by decide

/-- C6. On a client whose token is empty, `GetMessages`, `GetMessage(id)`, `DeleteMessage(id)`
and `DeleteAccount(flag)` each return their authentication-required error and leave the
client (its session fields and its store) and the world (files, clock, requests sent,
answers not yet consumed) exactly as they were: no request is sent, whatever the provider
would have answered, and no login is attempted. -/
theorem no_token_fails_without_request (L : JSONLib) (io : SaveFaults) (c : Client) (w : World)
    (id : String) (flag : Bool) (h : c.Token = "") :
    c.GetMessages L w = some (.error "no token; please login first", c, w) ∧
    c.GetMessage L w id = some (.error "no token; please login first", c, w) ∧
    c.DeleteMessage w id = some (.error "no token; please login first", c, w) ∧
    c.DeleteAccount L io w flag
      = some (.error "no token/account id; please login first", c, w) := by
  refine ⟨?_, ?_, ?_, ?_⟩
  · simp only [Client.GetMessages, authReq_no_token c _ _ _ h]
  · simp only [Client.GetMessage, authReq_no_token c _ _ _ h]
  · simp only [Client.DeleteMessage, authReq_no_token c _ _ _ h]
  · simp [Client.DeleteAccount, h]

/-- C6 on a client that is not logged in. -/
theorem no_token_fails_without_request_witness :
    loggedOut.Token = "" ∧
    loggedOut.GetMessages sampleLib silentWorld
      = some (.error "no token; please login first", loggedOut, silentWorld) ∧
    loggedOut.GetMessage sampleLib silentWorld "m1"
      = some (.error "no token; please login first", loggedOut, silentWorld) ∧
    loggedOut.DeleteMessage silentWorld "m1"
      = some (.error "no token; please login first", loggedOut, silentWorld) ∧
    loggedOut.DeleteAccount sampleLib SaveFaults.ok silentWorld true
      = some (.error "no token/account id; please login first", loggedOut, silentWorld) :=
  ⟨rfl, no_token_fails_without_request sampleLib SaveFaults.ok loggedOut silentWorld "m1" true rfl⟩

/-! ## `DeleteAccount` -/

/-- The method `Remove` leaves every other key as it was. -/
theorem Remove_other (L : JSONLib) (io : SaveFaults) (s : Storage) (fs : FS) (key k : String)
    (hk : k ≠ key) : (Storage.Remove L io s fs key).2.1.Get k = s.Get k := by
  unfold Storage.Remove Storage.Get
  cases h : s.Accounts.lookup key with
  | none => rfl
  | some acc => exact AList.lookup_erase_ne hk

/-- After `Remove` the key is absent. -/
theorem Remove_gone (L : JSONLib) (io : SaveFaults) (s : Storage) (fs : FS) (key : String) :
    (Storage.Remove L io s fs key).2.1.Get key = none := by
  unfold Storage.Remove Storage.Get
  cases h : s.Accounts.lookup key with
  | none => simpa using h
  | some acc => simp

/-- With a token and an account id that make a URL `http.NewRequest` rejects (an id such as
`%zz`), `DeleteAccount` panics inside `authReq`, whatever the provider would answer:
nothing is sent, and neither the session nor the store is touched. -/
theorem DeleteAccount_panics (L : JSONLib) (io : SaveFaults) (c : Client) (w : World)
    (flag : Bool) (htok : c.Token ≠ "") (hid : c.AccountID ≠ "")
    (hpath : requestBuilds ("/accounts/" ++ c.AccountID) = false) :
    c.DeleteAccount L io w flag = none := by
  have hcond : ¬ (c.AccountID = "" ∨ c.Token = "") := by
    rintro (h | h)
    · exact hid h
    · exact htok h
  simp only [Client.DeleteAccount, hcond, if_false, authReq_panics c _ _ _ htok hpath]

/-- C7. On a logged-in client, for both values of the flag: when the delete request is built
(`http.NewRequest` accepts its URL) and the provider answers it with status 204, so that
the remote delete has succeeded, `DeleteAccount` returns no error and the token, address,
password, account id and storage key of the client are empty afterwards; exactly one
request, a `DELETE`, was sent and one answer consumed; when the flag is set and the storage
key is not empty the store no longer has a record under that key and every other key holds
what it held; otherwise the store is unchanged. -/
theorem delete_account_clears_session (L : JSONLib) (io : SaveFaults) (c : Client) (w : World)
    (flag : Bool) (r : Reply) (rest : List Reply) (res : Response)
    (htok : c.Token ≠ "") (hid : c.AccountID ≠ "")
    (hpath : requestBuilds ("/accounts/" ++ c.AccountID) = true)
    (hrep : w.replies = r :: rest) (hres : r.result = .ok res) (h204 : res.StatusCode = 204) :
    ∃ c1 w1,
      c.DeleteAccount L io w flag = some (.ok (), c1, w1) ∧
      c1.Token = "" ∧ c1.Address = "" ∧ c1.Password = "" ∧ c1.AccountID = "" ∧
      c1.AccountKey = "" ∧
      (∃ req, w1.sent = w.sent ++ [req] ∧ req.Method = "DELETE") ∧
      w1.replies = rest ∧
      ((flag = true ∧ c.AccountKey ≠ "") →
        c1.Store.Get c.AccountKey = none ∧
        ∀ k, k ≠ c.AccountKey → c1.Store.Get k = c.Store.Get k) ∧
      (¬ (flag = true ∧ c.AccountKey ≠ "") → c1.Store = c.Store) := by
  have hcond : ¬ (c.AccountID = "" ∨ c.Token = "") := by
    rintro (h | h)
    · exact hid h
    · exact htok h
  simp only [Client.DeleteAccount, hcond, if_false, authReq_token c _ _ htok hpath, httpDo, hrep,
    hres, h204, ne_eq, not_true_eq_false]
  refine ⟨_, _, rfl, rfl, rfl, rfl, rfl, rfl, ⟨_, rfl, rfl⟩, rfl, ?_, ?_⟩
  · intro hflag
    simp only [hflag, ne_eq, not_false_eq_true, and_self, if_true]
    exact ⟨Remove_gone L io _ _ _, fun k hk => Remove_other L io _ _ _ _ hk⟩
  · intro hflag
    show (if flag = true ∧ ¬c.AccountKey = "" then
        (Storage.Remove L io c.Store w.fs c.AccountKey).2 else (c.Store, w.fs)).1 = c.Store
    rw [if_neg hflag]

/-- C7 on the sample client, with removal from the store requested. -/
theorem delete_account_clears_session_witness :
    loggedIn.Token ≠ "" ∧ loggedIn.AccountID ≠ "" ∧
    requestBuilds ("/accounts/" ++ loggedIn.AccountID) = true ∧
    ∃ c1 w1,
      loggedIn.DeleteAccount sampleLib SaveFaults.ok deletingWorld true = some (.ok (), c1, w1) ∧
      c1.Token = "" ∧ c1.Address = "" ∧ c1.Password = "" ∧ c1.AccountID = "" ∧
      c1.AccountKey = "" ∧
      (∃ req, w1.sent = deletingWorld.sent ++ [req] ∧ req.Method = "DELETE") ∧
      w1.replies = [] ∧
      ((true = true ∧ loggedIn.AccountKey ≠ "") →
        c1.Store.Get loggedIn.AccountKey = none ∧
        ∀ k, k ≠ loggedIn.AccountKey → c1.Store.Get k = loggedIn.Store.Get k) ∧
      (¬ (true = true ∧ loggedIn.AccountKey ≠ "") → c1.Store = loggedIn.Store) :=
  ⟨by decide, by decide, by decide,
    delete_account_clears_session sampleLib SaveFaults.ok loggedIn deletingWorld true
      { elapsed := 5, result := .ok { StatusCode := 204, Body := "" } } []
      { StatusCode := 204, Body := "" } (by decide) (by decide) (by decide) rfl rfl rfl⟩

/-! ## `extractHTML` -/

/-- The string elements of a list of decoded values, in order. -/
theorem filterMap_strings (l : List String) :
    (l.map JSONValue.string).filterMap (fun it => match it with
      | .string str => some str
      | _ => none) = l := by
  induction l with
  | nil => rfl
  | cons a l ih => simp [List.filterMap_cons, ih]

/-- A list without string elements has no string elements to join. -/
theorem filterMap_no_strings (items : List JSONValue)
    (h : ∀ it ∈ items, ∀ str, it ≠ JSONValue.string str) :
    items.filterMap (fun it => match it with
      | .string str => some str
      | _ => none) = [] := by
  induction items with
  | nil => rfl
  | cons a l ih =>
    have hl := ih (fun it hit => h it (List.mem_cons_of_mem _ hit))
    have ha := h a (List.mem_cons_self _ _)
    cases a with
    | string str => exact absurd rfl (ha str)
    | null => simpa [List.filterMap_cons] using hl
    | bool b => simpa [List.filterMap_cons] using hl
    | number q => simpa [List.filterMap_cons] using hl
    | array v => simpa [List.filterMap_cons] using hl
    | object o => simpa [List.filterMap_cons] using hl

/-- The elements kept by the loop of `extractHTML` are the string elements of the list. -/
theorem filterMap_eq_stringElements (items : List JSONValue) :
    items.filterMap (fun it => match it with
      | .string str => some str
      | _ => none) = stringElements items := by
  induction items with
  | nil => rfl
  | cons a l ih =>
    cases a with
    | string str => simp [List.filterMap_cons, stringElements, ih]
    | null => simpa [List.filterMap_cons, stringElements] using ih
    | bool b => simpa [List.filterMap_cons, stringElements] using ih
    | number q => simpa [List.filterMap_cons, stringElements] using ih
    | array v => simpa [List.filterMap_cons, stringElements] using ih
    | object o => simpa [List.filterMap_cons, stringElements] using ih

/-- C9, as the code has it. `extractHTML` returns a string payload itself; for every list it
returns the string elements of the list, in their order, joined with a newline between
them, the elements that are not strings being skipped; so a list of strings gives all its
elements joined, and an empty list or a list without any string element gives the empty
string; and it returns the empty string for `null`, a boolean, a number and an object.
Concretely `"hello"` gives `"hello"`, `["a","b"]` gives `"a\nb"`, `42` and `[]` give `""`,
`["a",1,2]` gives `"a"` and `[1,"a",null,"b",true]` gives `"a\nb"`. -/
theorem extractHTML_shapes :
    (∀ v : String, extractHTML (.string v) = v) ∧
    (∀ items : List JSONValue,
      extractHTML (.array items) = "\n".intercalate (stringElements items)) ∧
    (∀ l : List String, extractHTML (.array (l.map JSONValue.string)) = "\n".intercalate l) ∧
    (∀ (pre post : List String) (x : JSONValue), (∀ str, x ≠ JSONValue.string str) →
      extractHTML (.array (pre.map JSONValue.string ++ x :: post.map JSONValue.string))
        = "\n".intercalate (pre ++ post)) ∧
    (∀ items : List JSONValue, (∀ it ∈ items, ∀ str, it ≠ JSONValue.string str) →
      extractHTML (.array items) = "") ∧
    extractHTML .null = "" ∧
    (∀ b, extractHTML (.bool b) = "") ∧
    (∀ q, extractHTML (.number q) = "") ∧
    (∀ o, extractHTML (.object o) = "") ∧
    extractHTML (.string "hello") = "hello" ∧
    extractHTML (.array [.string "a", .string "b"]) = "a\nb" ∧
    extractHTML (.number 42) = "" ∧
    extractHTML (.array []) = "" ∧
    extractHTML (.array [.string "a", .number 1, .number 2]) = "a" ∧
    extractHTML (.array [.number 1, .string "a", .null, .string "b", .bool true]) = "a\nb" := by
  refine ⟨fun v => rfl, ?_, ?_, ?_, ?_, rfl, fun b => rfl, fun q => rfl, fun o => rfl, rfl, ?_,
    rfl, rfl, ?_, ?_⟩
  · intro items
    simp only [extractHTML, filterMap_eq_stringElements, Join]
  · intro l
    simp only [extractHTML, filterMap_strings, Join]
  · intro pre post x hx
    have hx1 : [x].filterMap (fun it => match it with
        | .string str => some str
        | _ => none) = [] :=
      filterMap_no_strings [x] (by
        intro it hit str
        rw [List.mem_singleton] at hit
        subst hit
        exact hx str)
    have hsplit : pre.map JSONValue.string ++ x :: post.map JSONValue.string
        = pre.map JSONValue.string ++ ([x] ++ post.map JSONValue.string) := rfl
    simp only [extractHTML, hsplit, List.filterMap_append, filterMap_strings, hx1,
      List.nil_append, Join]
  · intro items h
    simp only [extractHTML, filterMap_no_strings items h]
    rfl
  · decide
  · decide
  · decide

/-- C9 as stated fails: the list `["a", 42]` contains an element that is not a string, and
`extractHTML` returns `"a"` for it, not the empty string. -/
theorem extractHTML_skips_non_strings :
    extractHTML (.array [.string "a", .number 42]) = "a" ∧
    extractHTML (.array [.string "a", .number 42]) ≠ "" := by
  decide

/-! ## `WaitForMessage` -/

/-- A successful fetch: `GetMessages` sends one request, consumes one answer and returns the
mailbox the answer holds. -/
theorem GetMessages_ok (L : JSONLib) (c : Client) (w : World) (r : Reply) (rest : List Reply)
    (ms : List message) (htok : c.Token ≠ "") (hrep : w.replies = r :: rest)
    (hms : r.messages L = some ms) :
    c.GetMessages L w =
      some (.ok ms, c, { fs := w.fs, now := w.now + r.elapsed, sent := w.sent ++ [pollRequest c],
                         replies := rest }) := by
  unfold Reply.messages at hms
  cases hres : r.result with
  | error e => rw [hres] at hms; cases hms
  | ok res =>
    rw [hres] at hms
    simp only at hms
    by_cases h200 : res.StatusCode = 200
    · rw [if_pos h200] at hms
      cases hdec : L.decodeMessages res.Body with
      | error e => rw [hdec] at hms; cases hms
      | ok members =>
        rw [hdec] at hms
        simp only [Option.some.injEq] at hms
        subst hms
        simp [Client.GetMessages, authReq_token c _ _ htok requestBuilds_messages, httpDo, hrep,
          hres, h200, hdec, pollRequest]
    · rw [if_neg h200] at hms
      cases hms

/-- The polling loop on a quiet stretch: while the answers hold mailboxes none of which is
larger than the one before it, and the time budget is not used up before any of them, the
loop runs through them, one sleep and one request each, and carries on from there. -/
theorem waitLoop_quiet (L : JSONLib) (start : Nat) (timeout interval : Int) (c : Client)
    (htok : c.Token ≠ "") (rest : List Reply) :
    ∀ (polls : List Reply) (lists : List (List message)) (fuel last : Nat) (w : World),
      w.replies = polls ++ rest →
      polls.map (Reply.messages L) = lists.map some →
      List.Chain (fun a b => b ≤ a) last (lists.map List.length) →
      (∀ j, j < polls.length →
        (((w.now + ((polls.take j).map (roundTime interval)).sum - start : Nat) : Int)
          < timeout)) →
      Client.waitLoop L start timeout interval (fuel + polls.length) last c w =
        Client.waitLoop L start timeout interval fuel
          ((lists.map List.length).getLastD last) c
          { fs := w.fs, now := w.now + (polls.map (roundTime interval)).sum,
            sent := w.sent ++ List.replicate polls.length (pollRequest c), replies := rest } := by
  intro polls
  induction polls with
  | nil =>
    intro lists fuel last w hrep hmap _ _
    cases lists with
    | cons a l => simp at hmap
    | nil =>
      obtain ⟨wfs, wnow, wsent, wrep⟩ := w
      simp only [List.nil_append] at hrep
      subst hrep
      simp
  | cons p ps ih =>
    intro lists fuel last w hrep hmap hchain htime
    cases lists with
    | nil => simp at hmap
    | cons ms ls =>
      simp only [List.map_cons, List.cons.injEq] at hmap
      obtain ⟨hp, hps⟩ := hmap
      simp only [List.map_cons, List.chain_cons] at hchain
      obtain ⟨hle, hchain1⟩ := hchain
      have h0 := htime 0 (by simp)
      simp only [List.take_zero, List.map_nil, List.sum_nil, Nat.add_zero] at h0
      have hget := GetMessages_ok L c
        { w with now := w.now + interval.toNat } p (ps ++ rest) ms htok
        (by simpa using hrep) hp
      have hnot : ¬ ms.length > last := by omega
      have hstep : Client.waitLoop L start timeout interval (fuel + (p :: ps).length) last c w =
          Client.waitLoop L start timeout interval (fuel + ps.length) ms.length c
            { fs := w.fs, now := w.now + interval.toNat + p.elapsed,
              sent := w.sent ++ [pollRequest c], replies := ps ++ rest } := by
        show Client.waitLoop L start timeout interval ((fuel + ps.length) + 1) last c w = _
        simp only [Client.waitLoop, h0, if_true, hget, hnot, dif_neg, not_false_eq_true]
      rw [hstep]
      rw [ih ls fuel ms.length _ rfl hps hchain1 ?_]
      · simp only [List.map_cons, List.getLastD_cons, List.sum_cons, List.length_cons,
          List.replicate_succ, List.append_assoc, List.singleton_append, roundTime]
        congr 2
        omega
      · intro j hj
        have := htime (j + 1) (by simpa using hj)
        simp only [List.take_succ_cons, List.map_cons, List.sum_cons] at this
        have heq : w.now + interval.toNat + p.elapsed +
            (List.map (roundTime interval) (List.take j ps)).sum
            = w.now + (roundTime interval p +
            (List.map (roundTime interval) (List.take j ps)).sum) := by
          simp only [roundTime]
          omega
        show ((w.now + interval.toNat + p.elapsed +
            (List.map (roundTime interval) (List.take j ps)).sum - start : Nat) : Int) < timeout
        rw [heq]
        exact this

/-- Polls that all report the count of the snapshot form a quiet stretch. -/
theorem chain_of_same (n : Nat) : ∀ (l : List Nat), (∀ x ∈ l, x = n) →
    List.Chain (fun a b => b ≤ a) n l ∧ l.getLastD n = n := by
  intro l
  induction l with
  | nil => intro _; exact ⟨List.Chain.nil, rfl⟩
  | cons a l ih =>
    intro h
    have ha : a = n := h a (List.mem_cons_self _ _)
    subst ha
    obtain ⟨hc, hl⟩ := ih (fun x hx => h x (List.mem_cons_of_mem _ hx))
    exact ⟨List.Chain.cons le_rfl hc, by rw [List.getLastD_cons]; exact hl⟩

/-- On a quiet stretch the last count is at most the first. -/
theorem getLastD_le_of_chain : ∀ (l : List Nat) (n : Nat),
    List.Chain (fun a b => b ≤ a) n l → l.getLastD n ≤ n := by
  intro l
  induction l with
  | nil => intro n _; exact le_rfl
  | cons a l ih =>
    intro n h
    simp only [List.chain_cons] at h
    simp only [List.getLastD_cons]
    exact le_trans (ih a h.2) h.1

/-- The loop test `time.Since(start) < timeout` after the initial fetch and some polls. -/
theorem since_eq_elapsedAfter (interval : Int) (now : Nat) (r0 : Reply) (polls : List Reply) :
    now + r0.elapsed + (polls.map (roundTime interval)).sum - now
      = elapsedAfter interval r0 polls := by
  unfold elapsedAfter
  omega

/-- C8. With a token, a timeout, a poll interval and successful fetches on an explicit clock:
(1) if the polls all report the message count of the initial snapshot, and the elapsed time
first reaches the timeout after the last of them, `WaitForMessage` returns no message and
no error, having made exactly these polls; (2) if after a stretch of polls none of which
reports more than the one before it (so the loop is still running) and with the timeout
not reached, a poll reports a larger count (than the initial snapshot, or than the poll
before it), `WaitForMessage` returns the first entry of that poll's list, which is not empty,
at once: the clock stands at the end of that fetch, and no further answer is consumed. -/
theorem wait_for_message_polling (L : JSONLib) (c : Client) (w : World)
    (timeout interval : Int) (r0 : Reply) (msgs0 : List message)
    (htok : c.Token ≠ "") (h0 : r0.messages L = some msgs0) :
    (∀ (polls : List Reply) (lists : List (List message)) (rest : List Reply),
      w.replies = r0 :: (polls ++ rest) →
      polls.map (Reply.messages L) = lists.map some →
      (∀ ms ∈ lists, ms.length = msgs0.length) →
      (∀ j, j < polls.length → (elapsedAfter interval r0 (polls.take j) : Int) < timeout) →
      timeout ≤ (elapsedAfter interval r0 polls : Int) →
      c.WaitForMessage L w timeout interval =
        some (.ok none, c,
          { fs := w.fs, now := w.now + elapsedAfter interval r0 polls,
            sent := w.sent ++ List.replicate (polls.length + 1) (pollRequest c),
            replies := rest })) ∧
    (∀ (pre : List Reply) (lists : List (List message)) (cur : Reply) (ms : List message)
      (rest : List Reply),
      w.replies = r0 :: (pre ++ cur :: rest) →
      pre.map (Reply.messages L) = lists.map some →
      List.Chain (fun a b => b ≤ a) msgs0.length (lists.map List.length) →
      (∀ j, j ≤ pre.length → (elapsedAfter interval r0 (pre.take j) : Int) < timeout) →
      cur.messages L = some ms →
      (msgs0.length < ms.length ∨ (lists.map List.length).getLastD msgs0.length < ms.length) →
      ∃ m, ms.head? = some m ∧
        c.WaitForMessage L w timeout interval =
          some (.ok (some m), c,
            { fs := w.fs, now := w.now + elapsedAfter interval r0 (pre ++ [cur]),
              sent := w.sent ++ List.replicate (pre.length + 2) (pollRequest c),
              replies := rest })) := by
  constructor
  · intro polls lists rest hrep hmap hsame htime hout
    have hget := GetMessages_ok L c w r0 (polls ++ rest) msgs0 htok hrep h0
    obtain ⟨hchain, hlast⟩ := chain_of_same msgs0.length (lists.map List.length)
      (by
        intro x hx
        obtain ⟨ms, hms, rfl⟩ := List.mem_map.1 hx
        exact hsame ms hms)
    have hfuel : (polls ++ rest).length + 1 = (rest.length + 1) + polls.length := by
      simp only [List.length_append]
      omega
    have hq := waitLoop_quiet L w.now timeout interval c htok rest polls lists (rest.length + 1)
      msgs0.length
      { fs := w.fs, now := w.now + r0.elapsed, sent := w.sent ++ [pollRequest c],
        replies := polls ++ rest } rfl hmap hchain
      (by
        intro j hj
        show ((w.now + r0.elapsed + ((polls.take j).map (roundTime interval)).sum - w.now : Nat)
          : Int) < timeout
        rw [since_eq_elapsedAfter]
        exact htime j hj)
    simp only [Client.WaitForMessage, hget, hfuel]
    rw [hq]
    have hcond : ¬ (((w.now + r0.elapsed + (polls.map (roundTime interval)).sum - w.now : Nat)
        : Int) < timeout) := by
      rw [since_eq_elapsedAfter]
      omega
    simp only [Client.waitLoop, hcond, if_false, Option.some.injEq, Prod.mk.injEq, true_and,
      World.mk.injEq, List.append_assoc, List.singleton_append, List.replicate_succ, and_true]
    unfold elapsedAfter
    omega
  · intro pre lists cur ms rest hrep hmap hchain htime hcur hlarger
    have hget := GetMessages_ok L c w r0 (pre ++ cur :: rest) msgs0 htok hrep h0
    have hfuel : (pre ++ cur :: rest).length + 1 = (rest.length + 2) + pre.length := by
      simp only [List.length_append, List.length_cons]
      omega
    have hq := waitLoop_quiet L w.now timeout interval c htok (cur :: rest) pre lists
      (rest.length + 2) msgs0.length
      { fs := w.fs, now := w.now + r0.elapsed, sent := w.sent ++ [pollRequest c],
        replies := pre ++ cur :: rest } rfl hmap hchain
      (by
        intro j hj
        show ((w.now + r0.elapsed + ((pre.take j).map (roundTime interval)).sum - w.now : Nat)
          : Int) < timeout
        rw [since_eq_elapsedAfter]
        exact htime j (le_of_lt hj))
    have hlast : (lists.map List.length).getLastD msgs0.length < ms.length := by
      rcases hlarger with h | h
      · exact lt_of_le_of_lt (getLastD_le_of_chain _ _ hchain) h
      · exact h
    have hcond : (((w.now + r0.elapsed + (pre.map (roundTime interval)).sum - w.now : Nat)
        : Int) < timeout) := by
      rw [since_eq_elapsedAfter]
      have := htime pre.length le_rfl
      rwa [List.take_length] at this
    have hget2 := GetMessages_ok L c
      { fs := w.fs, now := w.now + r0.elapsed + (pre.map (roundTime interval)).sum
          + interval.toNat,
        sent := (w.sent ++ [pollRequest c]) ++ List.replicate pre.length (pollRequest c),
        replies := cur :: rest } cur rest ms htok rfl hcur
    cases ms with
    | nil => simp at hlast
    | cons m tl =>
      refine ⟨m, rfl, ?_⟩
      simp only [Client.WaitForMessage, hget, hfuel]
      rw [hq]
      show Client.waitLoop L w.now timeout interval ((rest.length + 1) + 1) _ c _ = _
      simp only [Client.waitLoop, hcond, if_true, hget2, gt_iff_lt, hlast, dite_true,
        List.get_cons_zero]
      have hnow : w.now + r0.elapsed + (List.map (roundTime interval) pre).sum + interval.toNat
          + cur.elapsed = w.now + elapsedAfter interval r0 (pre ++ [cur]) := by
        simp only [elapsedAfter, List.map_append, List.sum_append, List.map_cons, List.map_nil,
          List.sum_cons, List.sum_nil, roundTime]
        omega
      have hsent : w.sent ++ [pollRequest c] ++ List.replicate pre.length (pollRequest c)
          ++ [pollRequest c] = w.sent ++ List.replicate (pre.length + 2) (pollRequest c) := by
        rw [List.append_assoc, List.append_assoc, ← List.replicate_succ',
          List.singleton_append, ← List.replicate_succ]
      rw [hnow, hsent]
      rfl

/-- C8 on two runs with poll interval 5: the mailbox stays empty and the timeout 10 is reached
after two polls; a message arrives at the second poll, long before the timeout 100. -/
theorem wait_for_message_polling_witness :
    loggedIn.Token ≠ "" ∧ quietReply.messages sampleLib = some [] ∧
    loggedIn.WaitForMessage sampleLib quietWorld 10 5 =
      some (.ok none, loggedIn,
        { fs := quietWorld.fs,
          now := quietWorld.now + elapsedAfter 5 quietReply [quietReply, quietReply],
          sent := quietWorld.sent ++ List.replicate 3 (pollRequest loggedIn),
          replies := [] }) ∧
    ∃ m, [sampleMessage].head? = some m ∧
      loggedIn.WaitForMessage sampleLib mailWorld 100 5 =
        some (.ok (some m), loggedIn,
          { fs := mailWorld.fs,
            now := mailWorld.now + elapsedAfter 5 quietReply ([quietReply] ++ [mailReply]),
            sent := mailWorld.sent ++ List.replicate 3 (pollRequest loggedIn),
            replies := [quietReply] }) :=
  ⟨by decide, rfl,
    (wait_for_message_polling sampleLib loggedIn quietWorld 10 5 quietReply [] (by decide) rfl).1
      [quietReply, quietReply] [[], []] [] rfl rfl (by simp) (by decide) (by decide),
    (wait_for_message_polling sampleLib loggedIn mailWorld 100 5 quietReply [] (by decide) rfl).2
      [quietReply] [[]] mailReply [sampleMessage] [quietReply] rfl rfl (by simp) (by decide) rfl
      (Or.inl (by decide))⟩

/-! ## `Save` then `Load` -/

/-- After a successful `Save` the accounts file holds the text written for the map. -/
theorem Save_ok_file (L : JSONLib) (io : SaveFaults) (s : Storage) (fs : FS)
    (h : (Storage.Save L io s fs).1 = none) :
    (Storage.Save L io s fs).2.lookup s.File = some (L.encodeAccounts s.goMap) := by
  have herr := Save_err L io s fs
  rw [h] at herr
  unfold Storage.Save
  rcases io with ⟨c, e, wr, rf, n⟩
  cases c with
  | some x => simp at herr
  | none =>
    cases e with
    | some x => simp at herr
    | none =>
      cases n with
      | some x => simp at herr
      | none => exact AList.lookup_insert _

/-- What `Load` in a fresh instance makes of the file a successful `Save` wrote: the outcome
of decoding, into an empty map, the text the library wrote for the map saved. Whether that
outcome is the map saved is a property of `encoding/json`; it is settled further down, on Go
strings as sequences of bytes and with the library written out. -/
theorem Load_after_Save (L : JSONLib) (io : SaveFaults) (s : Storage) (fs : FS)
    (h : (Storage.Save L io s fs).1 = none) :
    Storage.Load L { File := s.File, Accounts := ∅ } (Storage.Save L io s fs).2 =
      match L.decodeAccounts (L.encodeAccounts s.goMap) (some ∅) with
      | .error e => (some e, { File := s.File, Accounts := ∅ })
      | .ok m => (none, Storage.ofGoMap s.File m) := by
  have hfile := Save_ok_file L io s fs h
  simp only [Storage.Load, hfile]
  rfl

/-- When the accounts file holds a text that the library decodes to the nil map without an
error, as it does for the JSON text `null`, `NewStorage` returns a store whose map is nil. -/
theorem NewStorage_nil (L : JSONLib) (file text : String) (fs : FS)
    (hfile : fs.lookup file = some text) (hdec : L.decodeAccounts text (some ∅) = .ok none) :
    NewStorage L file fs = Storage.ofGoMap file none ∧ (NewStorage L file fs).IsNil = true := by
  have h : NewStorage L file fs = Storage.ofGoMap file none := by
    have hgo : ({ File := file, Accounts := ∅ } : Storage).goMap = some ∅ := rfl
    simp only [NewStorage, Storage.Load, hfile, hgo, hdec]
  exact ⟨h, by rw [h]; rfl⟩

/-! ## Go strings and UTF-8 -/

/-- The code point of the character made from a Unicode scalar value is that value. -/
theorem toNat_ofNat_of_valid (n : Nat) (h : n < 0xD800 ∨ (0xDFFF < n ∧ n < 0x110000)) :
    (Char.ofNat n).toNat = n := by
  have hv : n.isValidChar := h
  simp only [Char.ofNat, hv, dite_true, Char.ofNatAux, Char.toNat]
  rfl

/-- The range of a continuation byte. -/
theorem isCont_iff (b : Nat) : isCont b = true ↔ 0x80 ≤ b ∧ b ≤ 0xBF := by
  simp [isCont]

/-- A step that reads a character has read the UTF-8 encoding of that character. -/
theorem decodeRune_char (bs rest : List Nat) (c : Char)
    (h : decodeRune bs = some (.char c, rest)) : bs = utf8Bytes c ++ rest := by
  cases bs with
  | nil => simp [decodeRune] at h
  | cons b0 tl =>
    simp only [decodeRune] at h
    split_ifs at h with h1 h2 h3 h4
    · simp only [Option.some.injEq, Prod.mk.injEq, Rune.char.injEq] at h
      obtain ⟨hc, hr⟩ := h
      subst hc hr
      have hn := toNat_ofNat_of_valid b0 (by omega)
      simp only [utf8Bytes, hn, h1, if_true]
      rfl
    · cases tl with
      | nil => simp at h
      | cons b1 tl1 =>
        simp only at h
        split_ifs at h with hc1
        · simp only [Option.some.injEq, Prod.mk.injEq, Rune.char.injEq] at h
          obtain ⟨hc, hr⟩ := h
          subst hc hr
          rw [isCont_iff] at hc1
          have hn := toNat_ofNat_of_valid ((b0 - 0xC0) * 64 + (b1 - 0x80)) (by omega)
          have e0 : 0xC0 + ((b0 - 0xC0) * 64 + (b1 - 0x80)) / 64 = b0 := by omega
          have e1 : 0x80 + ((b0 - 0xC0) * 64 + (b1 - 0x80)) % 64 = b1 := by omega
          have g1 : ¬ (b0 - 0xC0) * 64 + (b1 - 0x80) < 0x80 := by omega
          have g2 : (b0 - 0xC0) * 64 + (b1 - 0x80) < 0x800 := by omega
          simp only [utf8Bytes, hn, g1, g2, if_true, if_false, e0, e1]
          rfl
        · simp at h
    · cases tl with
      | nil => simp at h
      | cons b1 tl1 =>
        cases tl1 with
        | nil => simp at h
        | cons b2 tl2 =>
          simp only at h
          split_ifs at h with hc1
          · simp only [Option.some.injEq, Prod.mk.injEq, Rune.char.injEq] at h
            obtain ⟨hc, hr⟩ := h
            subst hc hr
            obtain ⟨hlo, hhi, hc2⟩ := hc1
            rw [isCont_iff] at hc2
            have hb : (b0 = 0xE0 → 0xA0 ≤ b1) ∧ 0x80 ≤ b1 ∧ (b0 = 0xED → b1 ≤ 0x9F) ∧ b1 ≤ 0xBF := by
              unfold secondLo at hlo
              unfold secondHi at hhi
              split_ifs at hlo hhi <;> omega
            have hn := toNat_ofNat_of_valid ((b0 - 0xE0) * 4096 + (b1 - 0x80) * 64 + (b2 - 0x80))
              (by omega)
            have e0 : 0xE0 + ((b0 - 0xE0) * 4096 + (b1 - 0x80) * 64 + (b2 - 0x80)) / 4096 = b0 := by
              omega
            have e1 : 0x80 + ((b0 - 0xE0) * 4096 + (b1 - 0x80) * 64 + (b2 - 0x80)) / 64 % 64
                = b1 := by omega
            have e2 : 0x80 + ((b0 - 0xE0) * 4096 + (b1 - 0x80) * 64 + (b2 - 0x80)) % 64 = b2 := by
              omega
            have g1 : ¬ (b0 - 0xE0) * 4096 + (b1 - 0x80) * 64 + (b2 - 0x80) < 0x80 := by omega
            have g2 : ¬ (b0 - 0xE0) * 4096 + (b1 - 0x80) * 64 + (b2 - 0x80) < 0x800 := by omega
            have g3 : (b0 - 0xE0) * 4096 + (b1 - 0x80) * 64 + (b2 - 0x80) < 0x10000 := by omega
            simp only [utf8Bytes, hn, g1, g2, g3, if_true, if_false, e0, e1, e2]
            rfl
          · simp at h
    · cases tl with
      | nil => simp at h
      | cons b1 tl1 =>
        cases tl1 with
        | nil => simp at h
        | cons b2 tl2 =>
          cases tl2 with
          | nil => simp at h
          | cons b3 tl3 =>
            simp only at h
            split_ifs at h with hc1
            · simp only [Option.some.injEq, Prod.mk.injEq, Rune.char.injEq] at h
              obtain ⟨hc, hr⟩ := h
              subst hc hr
              obtain ⟨hlo, hhi, hc2, hc3⟩ := hc1
              rw [isCont_iff] at hc2 hc3
              have hb : (b0 = 0xF0 → 0x90 ≤ b1) ∧ 0x80 ≤ b1 ∧ (b0 = 0xF4 → b1 ≤ 0x8F) ∧
                  b1 ≤ 0xBF := by
                unfold secondLo at hlo
                unfold secondHi at hhi
                split_ifs at hlo hhi <;> omega
              have hn := toNat_ofNat_of_valid
                ((b0 - 0xF0) * 262144 + (b1 - 0x80) * 4096 + (b2 - 0x80) * 64 + (b3 - 0x80))
                (by omega)
              have e0 : 0xF0 + ((b0 - 0xF0) * 262144 + (b1 - 0x80) * 4096 + (b2 - 0x80) * 64
                  + (b3 - 0x80)) / 262144 = b0 := by omega
              have e1 : 0x80 + ((b0 - 0xF0) * 262144 + (b1 - 0x80) * 4096 + (b2 - 0x80) * 64
                  + (b3 - 0x80)) / 4096 % 64 = b1 := by omega
              have e2 : 0x80 + ((b0 - 0xF0) * 262144 + (b1 - 0x80) * 4096 + (b2 - 0x80) * 64
                  + (b3 - 0x80)) / 64 % 64 = b2 := by omega
              have e3 : 0x80 + ((b0 - 0xF0) * 262144 + (b1 - 0x80) * 4096 + (b2 - 0x80) * 64
                  + (b3 - 0x80)) % 64 = b3 := by omega
              have g1 : ¬ (b0 - 0xF0) * 262144 + (b1 - 0x80) * 4096 + (b2 - 0x80) * 64
                  + (b3 - 0x80) < 0x80 := by omega
              have g2 : ¬ (b0 - 0xF0) * 262144 + (b1 - 0x80) * 4096 + (b2 - 0x80) * 64
                  + (b3 - 0x80) < 0x800 := by omega
              have g3 : ¬ (b0 - 0xF0) * 262144 + (b1 - 0x80) * 4096 + (b2 - 0x80) * 64
                  + (b3 - 0x80) < 0x10000 := by omega
              simp only [utf8Bytes, hn, g1, g2, g3, if_true, if_false, e0, e1, e2, e3]
              rfl
            · simp at h
    · simp at h

/-- The encoding of a character has at least one byte. -/
theorem length_utf8Bytes (c : Char) : 1 ≤ (utf8Bytes c).length := by
  unfold utf8Bytes
  simp only
  split_ifs <;> simp

/-- Only at the end of a string is there no rune to read. -/
theorem decodeRune_eq_none (bs : List Nat) (h : decodeRune bs = none) : bs = [] := by
  cases bs with
  | nil => rfl
  | cons b0 tl =>
    exfalso
    revert h
    simp only [decodeRune]
    repeat' split
    all_goals simp

/-- A Go string that reads as characters only is the UTF-8 encoding of those characters. -/
theorem utf8_readRunesAux : ∀ (fuel : Nat) (bs : List Nat), bs.length ≤ fuel →
    (readRunesAux fuel bs).all Rune.isChar = true →
    utf8 ((readRunesAux fuel bs).map Rune.read) = bs
  | 0, bs, hlen, _ => by
    have : bs = [] := List.length_eq_zero.1 (by omega)
    subst this
    rfl
  | fuel + 1, bs, hlen, hall => by
    simp only [readRunesAux] at hall ⊢
    cases hd : decodeRune bs with
    | none =>
      rw [decodeRune_eq_none bs hd]
      rfl
    | some p =>
      obtain ⟨r, rest⟩ := p
      rw [hd] at hall
      simp only [List.all_cons, Bool.and_eq_true] at hall
      cases r with
      | invalid b => exact absurd hall.1 (by simp [Rune.isChar])
      | char c =>
        have hbs := decodeRune_char bs rest c hd
        have hl := length_utf8Bytes c
        have hrest : rest.length ≤ fuel := by
          have := congrArg List.length hbs
          simp only [List.length_append] at this
          omega
        have ih := utf8_readRunesAux fuel rest hrest hall.2
        simp only [List.map_cons, utf8, Rune.read, ih]
        exact hbs.symm

/-- A well-formed Go string comes back as it is. -/
theorem coerced_of_valid (s : GoString) (h : s.valid = true) : s.coerced = s :=
  utf8_readRunesAux s.length s le_rfl h

/-- The encoding of a character is read as that character. -/
theorem decodeRune_utf8Bytes (c : Char) (rest : List Nat) :
    decodeRune (utf8Bytes c ++ rest) = some (.char c, rest) := by
  have hv : c.toNat < 0xD800 ∨ (0xDFFF < c.toNat ∧ c.toNat < 0x110000) := c.valid
  unfold utf8Bytes
  simp only
  split_ifs with h1 h2 h3
  · simp only [List.cons_append, List.nil_append, decodeRune, h1, if_true, Char.ofNat_toNat]
  · have c1 : ¬ (0xC0 + c.toNat / 64 < 0x80) := by omega
    have c2 : 0xC2 ≤ 0xC0 + c.toNat / 64 ∧ 0xC0 + c.toNat / 64 ≤ 0xDF := by omega
    have c3 : isCont (0x80 + c.toNat % 64) = true := by rw [isCont_iff]; omega
    have e : (0xC0 + c.toNat / 64 - 0xC0) * 64 + (0x80 + c.toNat % 64 - 0x80) = c.toNat := by
      omega
    simp only [List.cons_append, List.nil_append, decodeRune, c1, c2, c3, and_self, if_true,
      if_false, e, Char.ofNat_toNat]
  · have c1 : ¬ (0xE0 + c.toNat / 4096 < 0x80) := by omega
    have c2 : ¬ (0xC2 ≤ 0xE0 + c.toNat / 4096 ∧ 0xE0 + c.toNat / 4096 ≤ 0xDF) := by omega
    have c3 : 0xE0 ≤ 0xE0 + c.toNat / 4096 ∧ 0xE0 + c.toNat / 4096 ≤ 0xEF := by omega
    have c4 : secondLo (0xE0 + c.toNat / 4096) ≤ 0x80 + c.toNat / 64 % 64 ∧
        0x80 + c.toNat / 64 % 64 ≤ secondHi (0xE0 + c.toNat / 4096) ∧
        isCont (0x80 + c.toNat % 64) = true := by
      rw [isCont_iff]
      unfold secondLo secondHi
      split_ifs <;> omega
    have e : (0xE0 + c.toNat / 4096 - 0xE0) * 4096 + (0x80 + c.toNat / 64 % 64 - 0x80) * 64
        + (0x80 + c.toNat % 64 - 0x80) = c.toNat := by omega
    simp only [List.cons_append, List.nil_append, decodeRune, c1, c2, c3, c4, and_self, if_true,
      if_false, e, Char.ofNat_toNat]
  · have c1 : ¬ (0xF0 + c.toNat / 262144 < 0x80) := by omega
    have c2 : ¬ (0xC2 ≤ 0xF0 + c.toNat / 262144 ∧ 0xF0 + c.toNat / 262144 ≤ 0xDF) := by omega
    have c3 : ¬ (0xE0 ≤ 0xF0 + c.toNat / 262144 ∧ 0xF0 + c.toNat / 262144 ≤ 0xEF) := by omega
    have c3' : 0xF0 ≤ 0xF0 + c.toNat / 262144 ∧ 0xF0 + c.toNat / 262144 ≤ 0xF4 := by omega
    have c4 : secondLo (0xF0 + c.toNat / 262144) ≤ 0x80 + c.toNat / 4096 % 64 ∧
        0x80 + c.toNat / 4096 % 64 ≤ secondHi (0xF0 + c.toNat / 262144) ∧
        isCont (0x80 + c.toNat / 64 % 64) = true ∧ isCont (0x80 + c.toNat % 64) = true := by
      rw [isCont_iff, isCont_iff]
      unfold secondLo secondHi
      split_ifs <;> omega
    have e : (0xF0 + c.toNat / 262144 - 0xF0) * 262144 + (0x80 + c.toNat / 4096 % 64 - 0x80) * 4096
        + (0x80 + c.toNat / 64 % 64 - 0x80) * 64 + (0x80 + c.toNat % 64 - 0x80) = c.toNat := by
      omega
    simp only [List.cons_append, List.nil_append, decodeRune, c1, c2, c3, c3', c4, and_self,
      if_true, if_false, e, Char.ofNat_toNat]

/-- The encoding of a text reads as the characters of the text. -/
theorem readRunesAux_utf8 : ∀ (cs : List Char) (fuel : Nat), cs.length ≤ fuel →
    readRunesAux fuel (utf8 cs) = cs.map Rune.char
  | [], fuel, _ => by
    cases fuel with
    | zero => rfl
    | succ f => simp [readRunesAux, utf8, decodeRune]
  | c :: cs, fuel, h => by
    obtain ⟨f, rfl⟩ : ∃ f, fuel = f + 1 := ⟨fuel - 1, by simp at h; omega⟩
    simp only [readRunesAux, utf8, decodeRune_utf8Bytes, List.map_cons]
    rw [readRunesAux_utf8 cs f (by simp at h; omega)]

/-- The encoding of a text has at least as many bytes as the text has characters. -/
theorem length_utf8 : ∀ cs : List Char, cs.length ≤ (utf8 cs).length
  | [] => by simp [utf8]
  | c :: cs => by
    have := length_utf8 cs
    have := length_utf8Bytes c
    simp only [utf8, List.length_cons, List.length_append]
    omega

/-- The Go string of a well-formed text reads as the characters of the text. -/
theorem readRunes_ofString (s : String) : readRunes (GoString.ofString s) = s.data.map Rune.char :=
  readRunesAux_utf8 s.data _ (length_utf8 s.data)

/-- The Go string of a well-formed text is well-formed UTF-8, and its text is that text. -/
theorem ofString_valid (s : String) :
    (GoString.ofString s).valid = true ∧ (GoString.ofString s).text = s := by
  refine ⟨?_, ?_⟩
  · simp [GoString.valid, readRunes_ofString, Rune.isChar]
  · simp [GoString.text, readRunes_ofString, Rune.read, Function.comp_def]

/-! ## The accounts file written and read back -/

namespace Raw

/-- A hexadecimal digit written by the encoder is read with its value. -/
theorem hexVal_hexDigit : ∀ n, n < 16 → hexVal (hexDigit n) = some n := by decide

/-- The escape `\\u00XY` written for a value below 256 is read as that value. -/
theorem hex4_low (n : Nat) (h : n < 256) :
    hex4 '0' '0' (hexDigit (n / 16)) (hexDigit (n % 16)) = some n := by
  have h1 := hexVal_hexDigit (n / 16) (by omega)
  have h2 := hexVal_hexDigit (n % 16) (by omega)
  have h0 : hexVal '0' = some 0 := by decide
  simp only [hex4, h0, h1, h2]
  congr 1
  omega

/-- A character is determined by its code point. -/
theorem char_eq_of_toNat {c : Char} {n : Nat} (h : c.toNat = n) : c = Char.ofNat n := by
  rw [← h, Char.ofNat_toNat]

/-- One step of the decoder over an escape `\\uXXXX` whose value is not a high surrogate. -/
theorem parse_u4 (fuel : Nat) (acc rest : List Char) (a b c d : Char) (u : Nat)
    (h : hex4 a b c d = some u) (hns : ¬ (0xD800 ≤ u ∧ u ≤ 0xDBFF)) :
    parseStringBody (fuel + 1) acc ('\\' :: 'u' :: a :: b :: c :: d :: rest)
      = parseStringBody fuel (escapeChar u :: acc) rest := by
  simp only [parseStringBody]
  simp +decide [h, hns]

/-- One step of the decoder over the text written for one rune: the character the library
read at that rune is decoded, whatever follows. -/
theorem parse_escapeRune (short : Bool) (r : Rune) (fuel : Nat) (acc rest : List Char) :
    parseStringBody (fuel + 1) acc (escapeRune short r ++ rest)
      = parseStringBody fuel (r.read :: acc) rest := by
  cases r with
  | invalid b =>
    simp only [escapeRune, List.cons_append, List.nil_append, parseStringBody]
    simp +decide [hex4, hexVal, escapeChar, Rune.read]
  | char c =>
    simp only [escapeRune, Rune.read]
    split_ifs with h1 h2 h3 h4 h5 h6 h7 h8
    · rcases h1 with h | h
      · subst h
        simp +decide [parseStringBody]
      · subst h
        simp +decide [parseStringBody]
    · subst h2
      simp +decide [parseStringBody]
    · subst h3
      simp +decide [parseStringBody]
    · subst h4
      simp +decide [parseStringBody]
    · have := char_eq_of_toNat h5.2
      subst this
      simp +decide [parseStringBody]
    · have := char_eq_of_toNat h6.2
      subst this
      simp +decide [parseStringBody]
    · have hlt : c.toNat < 256 := by
        rcases h7 with h | h | h | h
        · omega
        · subst h; decide
        · subst h; decide
        · subst h; decide
      have hhex := hex4_low c.toNat hlt
      simp only [List.cons_append, List.nil_append]
      rw [parse_u4 fuel acc rest _ _ _ _ _ hhex (by omega)]
      have hesc : escapeChar c.toNat = c := by
        unfold escapeChar
        rw [if_neg (by omega), Char.ofNat_toNat]
      rw [hesc]
    · rcases h8 with h | h
      · have := char_eq_of_toNat h
        subst this
        simp +decide [parseStringBody, hex4, hexVal, hexDigit, escapeChar]
      · have := char_eq_of_toNat h
        subst this
        simp +decide [parseStringBody, hex4, hexVal, hexDigit, escapeChar]
    · have hq : c ≠ '"' := fun h => h1 (Or.inl h)
      have hb : c ≠ '\\' := fun h => h1 (Or.inr h)
      have hctl : ¬ c.toNat < 0x20 := fun h => h7 (Or.inl h)
      simp only [List.cons_append, List.nil_append, parseStringBody, hq, hb, hctl, if_false]
      rfl

/-- The decoder reads back the literal written for a Go string: each rune as the character
the library read there. -/
theorem parse_escapeRunes (short : Bool) : ∀ (s : List Rune) (fuel : Nat) (acc rest : List Char),
    s.length + 1 ≤ fuel →
    parseStringBody fuel acc (escapeRunes short s ++ '"' :: rest)
      = some (String.mk (acc.reverse ++ s.map Rune.read), rest)
  | [], fuel, acc, rest, h => by
    obtain ⟨f, rfl⟩ : ∃ f, fuel = f + 1 := ⟨fuel - 1, by omega⟩
    simp [escapeRunes, parseStringBody]
  | r :: s, fuel, acc, rest, h => by
    obtain ⟨f, rfl⟩ : ∃ f, fuel = f + 1 := ⟨fuel - 1, by omega⟩
    have hlen : s.length + 1 ≤ f := by simp only [List.length_cons] at h; omega
    rw [escapeRunes, List.append_assoc, parse_escapeRune,
      parse_escapeRunes short s f (r.read :: acc) rest hlen]
    simp

/-- The length of the literal body is at least the number of runes. -/
theorem length_escapeRunes (short : Bool) : ∀ s : List Rune,
    s.length ≤ (escapeRunes short s).length
  | [] => by simp [escapeRunes]
  | r :: s => by
    have ih := length_escapeRunes short s
    have h1 : 1 ≤ (escapeRune short r).length := by
      cases r with
      | invalid b => simp [escapeRune]
      | char c =>
        simp only [escapeRune]
        split_ifs <;> simp
    simp only [escapeRunes, List.length_append, List.length_cons]
    omega

/-- White space before a character that is not white space is skipped. -/
theorem skipSpace_append (ws : List Char) (c : Char) (l : List Char)
    (hws : ∀ x ∈ ws, isJSONSpace x = true) (hc : isJSONSpace c = false) :
    skipSpace (ws ++ c :: l) = c :: l := by
  induction ws with
  | nil => simp [skipSpace, List.dropWhile, hc]
  | cons x ws ih =>
    have hx := hws x (List.mem_cons_self _ _)
    have := ih (fun y hy => hws y (List.mem_cons_of_mem _ hy))
    simp only [skipSpace] at this ⊢
    simp only [List.cons_append, List.dropWhile, hx]
    exact this

/-- The literal written for a Go string is read as the text the library makes of it. -/
theorem parses_quote (short : Bool) (s : GoString) :
    Parses 1 (quote short s) (.string s.text) := by
  intro fuel ws rest hfuel hws
  obtain ⟨f, rfl⟩ : ∃ f, fuel = f + 1 := ⟨fuel - 1, by omega⟩
  have hskip : skipSpace (ws ++ (quote short s ++ rest))
      = '"' :: (escapeRunes short (readRunes s) ++ '"' :: rest) := by
    have := skipSpace_append ws '"' (escapeRunes short (readRunes s) ++ '"' :: rest) hws
      (by decide)
    simpa [quote] using this
  have hbody := parse_escapeRunes short (readRunes s)
    ((escapeRunes short (readRunes s) ++ '"' :: rest).length + 1) [] rest (by
      have := length_escapeRunes short (readRunes s)
      simp only [List.length_append, List.length_cons]
      omega)
  simp only [parseJSON, hskip, if_true, hbody]
  simp [GoString.text]

/-- One member is read in the mode `members`: the name, the colon, the value. -/
theorem parse_member_step (short : Bool) (ind : List Char)
    (hind : ∀ x ∈ ind, isJSONSpace x = true) (d : Nat) (name : GoString) (text : List Char)
    (v : JSONValue) (hv : Parses d text v) (f : Nat) (hf : d ≤ f)
    (acc : List (String × JSONValue)) (X : List Char) :
    parseJSON (f + 1) (.members acc) (writeMember short ind (name, text) ++ X) =
      match skipSpace X with
      | ',' :: rest4 =>
        parseJSON f (.members ((name.text, v) :: acc)) rest4
      | '\x7d' :: rest4 =>
        some (.object ((name.text, v) :: acc).reverse, rest4)
      | _ => none := by
  have hskip : skipSpace (writeMember short ind (name, text) ++ X)
      = '"' :: (escapeRunes short (readRunes name) ++ '"' :: (':' :: ' ' :: (text ++ X))) := by
    have := skipSpace_append ('\n' :: ind) '"'
      (escapeRunes short (readRunes name) ++ '"' :: (':' :: ' ' :: (text ++ X)))
      (by
        intro x hx
        rcases List.mem_cons.1 hx with h | h
        · subst h; decide
        · exact hind x h)
      (by decide)
    simpa [writeMember, quote, List.append_assoc] using this
  have hbody := parse_escapeRunes short (readRunes name)
    ((escapeRunes short (readRunes name) ++ '"' :: (':' :: ' ' :: (text ++ X))).length + 1) []
    (':' :: ' ' :: (text ++ X)) (by
      have := length_escapeRunes short (readRunes name)
      simp only [List.length_append, List.length_cons]
      omega)
  have hcolon : skipSpace (':' :: ' ' :: (text ++ X)) = ':' :: ' ' :: (text ++ X) := by
    have h : isJSONSpace ':' = false := by decide
    simp [skipSpace, List.dropWhile, h]
  have hval := hv f [' '] X hf (by intro x hx; simp at hx; subst hx; decide)
  simp only [List.cons_append, List.nil_append] at hval
  simp only [parseJSON, hskip, hbody, hcolon, hval]
  simp [GoString.text]

/-- The members of an object, written one after the other and followed by the closing
brace on its own line, are read in the mode `members` as the object of their values. -/
theorem parse_members (short : Bool) (ind outer : List Char)
    (hind : ∀ x ∈ ind, isJSONSpace x = true) (houter : ∀ x ∈ outer, isJSONSpace x = true)
    (d : Nat) :
    ∀ (ms : List (GoString × List Char × JSONValue)) (m : GoString × List Char × JSONValue)
      (acc : List (String × JSONValue)) (fuel : Nat) (rest : List Char),
      (∀ t ∈ m :: ms, Parses d t.2.1 t.2.2) → d + ms.length + 1 ≤ fuel →
      parseJSON fuel (.members acc)
        (writeMember short ind (m.1, m.2.1) ++
          (writeMore short ind (ms.map fun t => (t.1, t.2.1)) ++ '\n' :: (outer ++ '\x7d' :: rest)))
        = some (.object (acc.reverse ++
            (m :: ms).map fun t => (t.1.text, t.2.2)), rest)
  | [], m, acc, fuel, rest, hp, hfuel => by
    obtain ⟨f, rfl⟩ : ∃ f, fuel = f + 1 := ⟨fuel - 1, by omega⟩
    rw [parse_member_step short ind hind d m.1 m.2.1 m.2.2 (hp m (List.mem_cons_self _ _)) f
      (by simp at hfuel; omega)]
    have hskip : skipSpace ('\n' :: (outer ++ '\x7d' :: rest)) = '\x7d' :: rest := by
      have := skipSpace_append ('\n' :: outer) '\x7d' rest
        (by
          intro x hx
          rcases List.mem_cons.1 hx with h | h
          · subst h; decide
          · exact houter x h)
        (by decide)
      simpa using this
    simp only [List.map_nil, writeMore, List.nil_append, hskip]
    simp
  | m1 :: ms, m, acc, fuel, rest, hp, hfuel => by
    obtain ⟨f, rfl⟩ : ∃ f, fuel = f + 1 := ⟨fuel - 1, by omega⟩
    rw [parse_member_step short ind hind d m.1 m.2.1 m.2.2 (hp m (List.mem_cons_self _ _)) f
      (by simp at hfuel; omega)]
    have hcomma : isJSONSpace ',' = false := by decide
    have hskip : ∀ l : List Char, skipSpace (',' :: l) = ',' :: l := by
      intro l
      simp [skipSpace, List.dropWhile, hcomma]
    simp only [List.map_cons, writeMore, List.cons_append, List.append_assoc, hskip]
    have ih := parse_members short ind outer hind houter d ms m1
      ((m.1.text, m.2.2) :: acc) f rest
      (fun t ht => hp t (List.mem_cons_of_mem _ ht))
      (by simp only [List.length_cons] at hfuel; omega)
    simp only [ih]
    simp

/-- The text written for an object is read as the object of the values of its members. -/
theorem parses_writeObject (short : Bool) (ind outer : List Char)
    (hind : ∀ x ∈ ind, isJSONSpace x = true) (houter : ∀ x ∈ outer, isJSONSpace x = true)
    (d : Nat) (ms : List (GoString × List Char × JSONValue))
    (hp : ∀ t ∈ ms, Parses d t.2.1 t.2.2) :
    Parses (d + ms.length + 1)
      (writeObject short ind outer (ms.map fun t => (t.1, t.2.1)))
      (.object (ms.map fun t => (t.1.text, t.2.2))) := by
  intro fuel ws rest hfuel hws
  obtain ⟨f, rfl⟩ : ∃ f, fuel = f + 1 := ⟨fuel - 1, by omega⟩
  cases ms with
  | nil =>
    have hskip : skipSpace (ws ++ ('\x7b' :: '\x7d' :: rest)) = '\x7b' :: '\x7d' :: rest :=
      skipSpace_append ws '\x7b' ('\x7d' :: rest) hws (by decide)
    have hb : isJSONSpace '\x7d' = false := by decide
    have hskip2 : skipSpace ('\x7d' :: rest) = '\x7d' :: rest := by
      simp [skipSpace, List.dropWhile, hb]
    simp only [writeObject, List.map_nil, List.cons_append, List.nil_append, parseJSON, hskip]
    simp +decide only [hskip2, if_true, if_false]
  | cons m ms =>
    have hskip : skipSpace (ws ++ (writeObject short ind outer
        (List.map (fun t => (t.1, t.2.1)) (m :: ms)) ++ rest))
        = '\x7b' :: (writeMember short ind (m.1, m.2.1) ++
            (writeMore short ind (ms.map fun t => (t.1, t.2.1)) ++
              '\n' :: (outer ++ '\x7d' :: rest))) := by
      have := skipSpace_append ws '\x7b' (writeMember short ind (m.1, m.2.1) ++
            (writeMore short ind (ms.map fun t => (t.1, t.2.1)) ++
              '\n' :: (outer ++ '\x7d' :: rest))) hws (by decide)
      simpa [writeObject, List.append_assoc] using this
    have hfirst : skipSpace (writeMember short ind (m.1, m.2.1) ++
            (writeMore short ind (ms.map fun t => (t.1, t.2.1)) ++
              '\n' :: (outer ++ '\x7d' :: rest)))
        = '"' :: (escapeRunes short (readRunes m.1) ++ '"' :: (':' :: ' ' :: (m.2.1 ++
            (writeMore short ind (ms.map fun t => (t.1, t.2.1)) ++
              '\n' :: (outer ++ '\x7d' :: rest))))) := by
      have := skipSpace_append ('\n' :: ind) '"'
        (escapeRunes short (readRunes m.1) ++ '"' :: (':' :: ' ' :: (m.2.1 ++
            (writeMore short ind (ms.map fun t => (t.1, t.2.1)) ++
              '\n' :: (outer ++ '\x7d' :: rest)))))
        (by
          intro x hx
          rcases List.mem_cons.1 hx with h | h
          · subst h; decide
          · exact hind x h)
        (by decide)
      simpa [writeMember, quote, List.append_assoc] using this
    have hmem := parse_members short ind outer hind houter d ms m [] f rest hp
      (by simp only [List.length_cons] at hfuel; omega)
    simp +decide only [parseJSON, hskip, hfirst, hmem, if_true, if_false]
    simp

/-- The text written for a record is read as the object of its four fields. -/
theorem parses_encodeAccount (short : Bool) (a : Account) :
    Parses 6 (encodeAccount short a) (accountJSON a) := by
  have h := parses_writeObject short "    ".data "  ".data (by decide) (by decide) 1
    [(GoString.ofString "address", quote short a.Address, JSONValue.string a.Address.text),
     (GoString.ofString "password", quote short a.Password, JSONValue.string a.Password.text),
     (GoString.ofString "account_id", quote short a.AccountID,
        JSONValue.string a.AccountID.text),
     (GoString.ofString "nickname", quote short a.Nickname, JSONValue.string a.Nickname.text)]
    (by
      intro t ht
      simp only [List.mem_cons, List.mem_singleton, List.not_mem_nil, or_false] at ht
      rcases ht with h | h | h | h <;> subst h <;> exact parses_quote short _)
  simp only [List.map_cons, List.map_nil, (ofString_valid _).2] at h
  exact h

/-- The length of the text of an object is at least the number of its members plus two. -/
theorem length_writeObject (short : Bool) (ind outer : List Char) :
    ∀ ms : List (GoString × List Char), ms.length + 2 ≤ (writeObject short ind outer ms).length := by
  have hmore : ∀ ms : List (GoString × List Char),
      ms.length ≤ (writeMore short ind ms).length := by
    intro ms
    induction ms with
    | nil => simp [writeMore]
    | cons m ms ih =>
      simp only [writeMore, List.length_cons, List.length_append]
      omega
  intro ms
  cases ms with
  | nil => simp [writeObject]
  | cons m ms =>
    have := hmore ms
    simp only [writeObject, writeMember, List.length_cons, List.length_append]
    omega

/-- The text written for a map is read as the object of its records. -/
theorem parses_entries (short : Bool) (es : List (Sigma fun _ : GoString => Account)) :
    Parses (es.length + 7)
      (writeObject short "  ".data [] (es.map fun e => (e.1, encodeAccount short e.2)))
      (.object (es.map fun e => (e.1.text, accountJSON e.2))) := by
  have h := parses_writeObject short "  ".data [] (by decide) (by simp) 6
    (es.map fun e => (e.1, encodeAccount short e.2, accountJSON e.2))
    (by
      intro t ht
      obtain ⟨e, _, rfl⟩ := List.mem_map.1 ht
      exact parses_encodeAccount short e.2)
  simp only [List.map_map, List.length_map] at h
  have hfuel : 6 + es.length + 1 = es.length + 7 := by omega
  rw [hfuel] at h
  exact h

/-- A record written and read back: each field is the Go string of the characters read at
its runes. -/
theorem decodeAccount_accountJSON (a : Account) :
    decodeAccount (accountJSON a) = .ok a.coerced := by
  have h1 : foldName "password" ≠ foldName "address" := by decide
  have h2 : foldName "account_id" ≠ foldName "address" := by decide
  have h3 : foldName "account_id" ≠ foldName "password" := by decide
  have h4 : foldName "nickname" ≠ foldName "address" := by decide
  have h5 : foldName "nickname" ≠ foldName "password" := by decide
  have h6 : foldName "nickname" ≠ foldName "account_id" := by decide
  simp only [decodeAccount, accountJSON, List.foldlM, setField, h1, h2, h3, h4, h5, h6, if_true,
    if_false, bind, Except.bind, pure, Except.pure]
  rfl

/-- A record of well-formed strings comes back as it is. -/
theorem account_coerced_of_valid (a : Account) (h : a.valid = true) : a.coerced = a := by
  simp only [Account.valid, Bool.and_eq_true] at h
  obtain ⟨⟨⟨h1, h2⟩, h3⟩, h4⟩ := h
  cases a
  simp only [Account.coerced, coerced_of_valid _ h1, coerced_of_valid _ h2,
    coerced_of_valid _ h3, coerced_of_valid _ h4]

/-- The records of the object read from the text written for a map are stored one after
the other: each under its key as read back. -/
theorem foldlM_entries (es : List (Sigma fun _ : GoString => Account)) :
    ∀ m0 : AccountMap,
      (es.map fun e => (e.1.text, accountJSON e.2)).foldlM
        (fun (m : AccountMap) (kv : String × JSONValue) =>
          match decodeAccount kv.2 with
          | .ok a => Except.ok (m.insert (GoString.ofString kv.1) a)
          | .error e => Except.error e) m0
        = .ok (es.foldl (fun m e => m.insert e.1.coerced e.2.coerced) m0) := by
  induction es with
  | nil => intro m0; rfl
  | cons e es ih =>
    intro m0
    simp only [List.map_cons, List.foldlM, decodeAccount_accountJSON, List.foldl_cons]
    exact ih _

/-- What the decoder makes of the text the encoder wrote for a map: the records in the
order of their keys, each stored under its key as read back, a later one replacing an
earlier one that reads back the same. -/
theorem decodeAccounts_encodeAccounts (short : Bool) (m : AccountMap) (cur : Option AccountMap) :
    decodeAccounts (encodeAccounts short (some m)) cur
      = .ok (some ((m.entries.insertionSort keyLE).foldl
          (fun acc e => acc.insert e.1.coerced e.2.coerced) (cur.getD ∅))) := by
  have hlen := length_writeObject short "  ".data []
    ((m.entries.insertionSort keyLE).map fun e => (e.1, encodeAccount short e.2))
  have hparse := parses_entries short (m.entries.insertionSort keyLE)
    (2 * (writeObject short "  ".data []
      ((m.entries.insertionSort keyLE).map fun e => (e.1, encodeAccount short e.2)) ++ ['\n']).length
      + 2) [] ['\n']
    (by
      simp only [List.length_map] at hlen
      simp only [List.length_append, List.length_singleton]
      omega)
    (by simp)
  simp only [List.nil_append] at hparse
  simp only [decodeAccounts, encodeAccounts, String.length, hparse, foldlM_entries]

/-- The nil map is written as `null`, which the decoder reads as the nil map. -/
theorem decodeAccounts_encodeAccounts_nil (short : Bool) (cur : Option AccountMap) :
    decodeAccounts (encodeAccounts short none) cur = .ok none := by
  rfl

/-- Records stored one after the other, with keys that differ from one another: each key
holds its record afterwards, and the other keys hold what they held. -/
theorem lookup_foldl_insert :
    ∀ (l : List (Sigma fun _ : GoString => Account)) (m0 : AccountMap) (k : GoString),
      l.NodupKeys →
      (l.foldl (fun acc e => acc.insert e.1 e.2) m0).lookup k
        = (l.dlookup k).orElse fun _ => m0.lookup k
  | [], m0, k, _ => by simp
  | ⟨ek, ev⟩ :: l, m0, k, hnd => by
    have hnd1 := (List.nodupKeys_cons.1 hnd)
    rw [List.foldl_cons, lookup_foldl_insert l _ k hnd1.2]
    by_cases hk : k = ek
    · subst hk
      have hnone : l.dlookup k = none := List.dlookup_eq_none.2 hnd1.1
      rw [hnone]
      simp [List.dlookup_cons_eq]
    · rw [List.dlookup_cons_ne _ _ hk, AList.lookup_insert_ne hk]

/-- Storing with a function that agrees with another on the records stored gives the same
map. -/
theorem foldl_insert_congr (f g : AccountMap → (Sigma fun _ : GoString => Account) → AccountMap) :
    ∀ (l : List (Sigma fun _ : GoString => Account)) (m0 : AccountMap),
      (∀ e ∈ l, ∀ m, f m e = g m e) → l.foldl f m0 = l.foldl g m0
  | [], _, _ => rfl
  | e :: l, m0, h => by
    rw [List.foldl_cons, List.foldl_cons, h e (List.mem_cons_self _ _),
      foldl_insert_congr f g l _ (fun x hx => h x (List.mem_cons_of_mem _ hx))]

/-- After a successful `Save` the accounts file holds the text written for the map. -/
theorem raw_Save_file (short : Bool) (io : SaveFaults) (s : Storage) (fs : FS)
    (h : (Storage.Save short io s fs).1 = none) :
    (Storage.Save short io s fs).2.lookup s.File = some (encodeAccounts short s.Accounts) := by
  unfold Storage.Save at h ⊢
  rcases io with ⟨c, e, wr, rf, n⟩
  cases c with
  | some x => simp at h
  | none =>
    cases e with
    | some x => simp at h
    | none =>
      cases n with
      | some x => simp at h
      | none => exact AList.lookup_insert _

/-- What `Load` in a fresh instance makes of the file a successful `Save` wrote, for every
store: no error, and the records in the order of their keys, each stored under its key as
read back. -/
theorem raw_Load_after_Save (short : Bool) (io : SaveFaults) (s : Storage) (fs : FS)
    (h : (Storage.Save short io s fs).1 = none) :
    Storage.Load { File := s.File, Accounts := some ∅ } (Storage.Save short io s fs).2
      = (none, { File := s.File,
                 Accounts := s.Accounts.map fun m =>
                   (m.entries.insertionSort keyLE).foldl
                     (fun acc e => acc.insert e.1.coerced e.2.coerced) ∅ }) := by
  have hfile := raw_Save_file short io s fs h
  cases hm : s.Accounts with
  | none =>
    rw [hm] at hfile
    simp only [Storage.Load, hfile, decodeAccounts_encodeAccounts_nil, Option.map_none']
  | some m =>
    rw [hm] at hfile
    simp only [Storage.Load, hfile, decodeAccounts_encodeAccounts, Option.map_some',
      Option.getD_some]

/-- C10, as the code has it. For every store in which every key and every field of every
record is well-formed UTF-8: when `Save` succeeds, `Load` in a fresh instance on the same
file, and `NewStorage` on that file, report no error and yield a mapping with exactly the
same keys and under each key the same record (and the nil map comes back as the nil map),
whatever the I/O steps that let `Save` succeed, the files before, and the library version. -/
theorem save_load_round_trip (short : Bool) (io : SaveFaults) (s : Storage) (fs : FS)
    (hvalid : s.valid = true) (hsave : (Storage.Save short io s fs).1 = none) :
    (Storage.Load { File := s.File, Accounts := some ∅ } (Storage.Save short io s fs).2).1
      = none ∧
    (∀ m, s.Accounts = some m →
      ∃ m1, (∀ key, m1.lookup key = m.lookup key) ∧
        (Storage.Load { File := s.File, Accounts := some ∅ } (Storage.Save short io s fs).2).2
          = { File := s.File, Accounts := some m1 } ∧
        NewStorage s.File (Storage.Save short io s fs).2
          = { File := s.File, Accounts := some m1 }) ∧
    (s.Accounts = none →
      (Storage.Load { File := s.File, Accounts := some ∅ } (Storage.Save short io s fs).2).2
        = { File := s.File, Accounts := none } ∧
      NewStorage s.File (Storage.Save short io s fs).2
        = { File := s.File, Accounts := none }) := by
  have hload := raw_Load_after_Save short io s fs hsave
  refine ⟨by rw [hload], ?_, ?_⟩
  · intro m hm
    simp only [Storage.valid, hm, List.all_eq_true, Bool.and_eq_true] at hvalid
    have hperm := List.perm_insertionSort keyLE m.entries
    have hsorted : ∀ e ∈ m.entries.insertionSort keyLE, ∀ acc : AccountMap,
        acc.insert e.1.coerced e.2.coerced = acc.insert e.1 e.2 := by
      intro e he acc
      have hv := hvalid e (hperm.mem_iff.1 he)
      rw [coerced_of_valid _ hv.1, account_coerced_of_valid _ hv.2]
    have hnd : (m.entries.insertionSort keyLE).NodupKeys :=
      (List.perm_nodupKeys hperm).2 m.nodupKeys
    refine ⟨(m.entries.insertionSort keyLE).foldl
      (fun acc e => acc.insert e.1.coerced e.2.coerced) ∅, ?_, ?_, ?_⟩
    · intro key
      rw [foldl_insert_congr _ (fun acc e => acc.insert e.1 e.2) _ _ hsorted,
        lookup_foldl_insert _ _ _ hnd, List.perm_dlookup key hnd m.nodupKeys hperm]
      simp [AList.lookup]
    · rw [hload, hm]
      rfl
    · unfold NewStorage
      rw [hload, hm]
      rfl
  · intro hm
    refine ⟨?_, ?_⟩
    · rw [hload, hm]
      rfl
    · unfold NewStorage
      rw [hload, hm]
      rfl

set_option maxRecDepth 100000 in
/-- C10 on a sample store of two records with well-formed strings, among them characters
that the encoder escapes: the text written, and the two records read back from it. -/
theorem save_load_round_trip_witness :
    textStore.valid = true ∧ (Storage.Save true SaveFaults.ok textStore ∅).1 = none ∧
    (Storage.Save true SaveFaults.ok textStore ∅).2.lookup "email_accounts.json"
      = some ("\x7b\n  \"al \\u003cice\\u003e\\n\": \x7b\n    \"address\": \"b@x.io\",\n" ++
          "    \"password\": \"q\\u0026é\",\n    \"account_id\": \"\",\n" ++
          "    \"nickname\": \"al \\u003cice\\u003e\\n\"\n  \x7d,\n  \"bob\": \x7b\n" ++
          "    \"address\": \"a@x.io\",\n    \"password\": \"p\\\"w\\\\\",\n" ++
          "    \"account_id\": \"id1\",\n    \"nickname\": \"bob\"\n  \x7d\n\x7d\n") ∧
    (NewStorage "email_accounts.json"
        (Storage.Save true SaveFaults.ok textStore ∅).2).Accounts.map
      (fun m => (m.entries.length, m.lookup (GoString.ofString "bob"),
        m.lookup (GoString.ofString "al <ice>\n")))
      = some (2,
          some ⟨GoString.ofString "a@x.io", GoString.ofString "p\"w\\", GoString.ofString "id1",
            GoString.ofString "bob"⟩,
          some ⟨GoString.ofString "b@x.io", GoString.ofString "q&é", GoString.ofString "",
            GoString.ofString "al <ice>\n"⟩) ∧
    ((Storage.Load { File := textStore.File, Accounts := some ∅ }
        (Storage.Save true SaveFaults.ok textStore ∅).2).1 = none ∧
      (∀ m, textStore.Accounts = some m →
        ∃ m1, (∀ key, m1.lookup key = m.lookup key) ∧
          (Storage.Load { File := textStore.File, Accounts := some ∅ }
              (Storage.Save true SaveFaults.ok textStore ∅).2).2
            = { File := textStore.File, Accounts := some m1 } ∧
          NewStorage textStore.File (Storage.Save true SaveFaults.ok textStore ∅).2
            = { File := textStore.File, Accounts := some m1 }) ∧
      (textStore.Accounts = none →
        (Storage.Load { File := textStore.File, Accounts := some ∅ }
            (Storage.Save true SaveFaults.ok textStore ∅).2).2
          = { File := textStore.File, Accounts := none } ∧
        NewStorage textStore.File (Storage.Save true SaveFaults.ok textStore ∅).2
          = { File := textStore.File, Accounts := none })) :=
  ⟨(by decide), (by decide), (by decide), (by decide),
    save_load_round_trip true SaveFaults.ok textStore ∅ (by decide) (by decide)⟩

set_option maxRecDepth 100000 in
/-- C10 as stated fails on a key that is not well-formed UTF-8. The store holds one record
under the key made of the byte `0xff`; `Save` succeeds and writes the key as `\ufffd`;
`Load` in a fresh instance reports no error, and the mapping it yields has no record
under the key `0xff`: the record is under the key U+FFFD, with the nickname U+FFFD. With
the two keys `0xfe` and `0xff` the mapping read back holds one record where two were
saved. The same happens with the older way of writing U+0008 and U+000C. -/
theorem save_load_changes_key :
    (Storage.Save true SaveFaults.ok byteStore ∅).1 = none ∧
    (Storage.Save true SaveFaults.ok byteStore ∅).2.lookup "email_accounts.json"
      = some ("\x7b\n  \"\\ufffd\": \x7b\n    \"address\": \"a@x.io\",\n" ++
          "    \"password\": \"pw\",\n    \"account_id\": \"id1\",\n" ++
          "    \"nickname\": \"\\ufffd\"\n  \x7d\n\x7d\n") ∧
    (Storage.Load { File := "email_accounts.json", Accounts := some ∅ }
      (Storage.Save true SaveFaults.ok byteStore ∅).2).1 = none ∧
    byteStore.Accounts.map (fun m => (m.entries.length, m.lookup [0xff]))
      = some (1, some ⟨GoString.ofString "a@x.io", GoString.ofString "pw",
          GoString.ofString "id1", [0xff]⟩) ∧
    (Storage.Load { File := "email_accounts.json", Accounts := some ∅ }
      (Storage.Save true SaveFaults.ok byteStore ∅).2).2.Accounts.map
        (fun m => (m.entries.length, m.lookup [0xff],
          m.lookup [0xEF, 0xBF, 0xBD]))
      = some (1, none, some ⟨GoString.ofString "a@x.io", GoString.ofString "pw",
          GoString.ofString "id1", [0xEF, 0xBF, 0xBD]⟩) ∧
    (NewStorage "email_accounts.json"
      (Storage.Save false SaveFaults.ok byteStore ∅).2).Accounts.map
        (fun m => (m.entries.length, m.lookup [0xff]))
      = some (1, none) ∧
    (Storage.Save true SaveFaults.ok twoByteStore ∅).1 = none ∧
    (Storage.Load { File := "email_accounts.json", Accounts := some ∅ }
      (Storage.Save true SaveFaults.ok twoByteStore ∅).2).1 = none ∧
    twoByteStore.Accounts.map (fun m => m.entries.length) = some 2 ∧
    (Storage.Load { File := "email_accounts.json", Accounts := some ∅ }
      (Storage.Save true SaveFaults.ok twoByteStore ∅).2).2.Accounts.map
        (fun m => m.entries.length) = some 1 := by
  decide

end Raw

/-! ## A failing `Save` inside `Add` and `Remove` -/

/-- When some I/O step of `Save` fails, `Save` returns an error, the same for every store
and disk. -/
theorem Save_fails (L : JSONLib) (io : SaveFaults) (hfail : ¬ io.NoFault) :
    ∃ e, ∀ (s : Storage) (fs : FS), (Storage.Save L io s fs).1 = some e := by
  rcases io with ⟨c, en, wr, rf, rn⟩
  cases c with
  | some x => exact ⟨x, fun s fs => by rw [Save_err]⟩
  | none =>
    cases en with
    | some x => exact ⟨x, fun s fs => by rw [Save_err]⟩
    | none =>
      cases rn with
      | some x => exact ⟨x, fun s fs => by rw [Save_err]⟩
      | none => exact absurd ⟨rfl, rfl, rfl⟩ hfail

/-- C11, as the code has it. When an I/O step of `Save` fails during a mutating operation of
the store: `Add` on a store whose map is allocated returns the error of `Save` to its
caller, and the record it filed stays in the in-memory mapping (on a nil map `Add` does not
reach `Save` at all: the assignment before it panics); `Remove` of a key that is present
returns `true`, its only result, so the error of `Save` does not reach the caller, and the
key stays removed from the in-memory mapping. In neither case is the change rolled back. -/
theorem save_failure_keeps_change (L : JSONLib) (io : SaveFaults) (s : Storage) (fs : FS)
    (address password accountID nickname key : String) (hfail : ¬ io.NoFault) :
    ∃ e, (∀ (s0 : Storage) (fs0 : FS), (Storage.Save L io s0 fs0).1 = some e) ∧
      (s.IsNil = false →
        ∃ k fs1, s.chooseKey address nickname = some k ∧
          Storage.Add L io s fs address password accountID nickname =
            some (.error e,
              { File := s.File,
                Accounts := s.Accounts.insert k ⟨address, password, accountID, nickname⟩ },
              fs1) ∧
          ({ File := s.File,
             Accounts := s.Accounts.insert k ⟨address, password, accountID, nickname⟩ }
            : Storage).Get k = some ⟨address, password, accountID, nickname⟩) ∧
      (s.IsNil = true →
        Storage.Add L io s fs address password accountID nickname = none) ∧
      (∀ acc, s.Get key = some acc →
        ∃ fs1, Storage.Remove L io s fs key
            = (true, { File := s.File, Accounts := s.Accounts.erase key }, fs1) ∧
          ({ File := s.File, Accounts := s.Accounts.erase key } : Storage).Get key = none) := by
  obtain ⟨e, he⟩ := Save_fails L io hfail
  refine ⟨e, he, ?_, ?_, ?_⟩
  · intro hnil
    obtain ⟨k, hk, _⟩ := chooseKey_spec s address nickname
    have hadd := Add_of_chooseKey L io s fs address password accountID nickname k hk hnil
    rw [he] at hadd
    exact ⟨k, _, hk, hadd, AList.lookup_insert _⟩
  · intro hnil
    exact Add_nil L io s fs address password accountID nickname hnil
  · intro acc hacc
    unfold Storage.Get at hacc
    refine ⟨(Storage.Save L io { File := s.File, Accounts := s.Accounts.erase key } fs).2, ?_,
      AList.lookup_erase _ _⟩
    simp only [Storage.Remove, hacc]

/-- C11 on the sample store with a disk that cannot take the temporary file: `Add` of a new
record returns the error `no space left on device` and the store holds the record under
`carol`; `Remove("bob")` returns `true` and `bob` is gone. -/
theorem save_failure_keeps_change_witness :
    ¬ diskFull.NoFault ∧ sampleStore.IsNil = false ∧ sampleStore.Get "bob" ≠ none ∧
    (Storage.Add sampleLib diskFull sampleStore ∅ "c@x.io" "p" "id3" "carol").map
        (fun r => (r.1, r.2.1.Get "carol"))
      = some (.error "no space left on device", some ⟨"c@x.io", "p", "id3", "carol"⟩) ∧
    ((Storage.Remove sampleLib diskFull sampleStore ∅ "bob").1 = true ∧
      (Storage.Remove sampleLib diskFull sampleStore ∅ "bob").2.1.Get "bob" = none) ∧
    ∃ e, (∀ (s0 : Storage) (fs0 : FS), (Storage.Save sampleLib diskFull s0 fs0).1 = some e) ∧
      (sampleStore.IsNil = false →
        ∃ k fs1, sampleStore.chooseKey "c@x.io" "carol" = some k ∧
          Storage.Add sampleLib diskFull sampleStore ∅ "c@x.io" "p" "id3" "carol" =
            some (.error e,
              { File := sampleStore.File,
                Accounts := sampleStore.Accounts.insert k ⟨"c@x.io", "p", "id3", "carol"⟩ },
              fs1) ∧
          ({ File := sampleStore.File,
             Accounts := sampleStore.Accounts.insert k ⟨"c@x.io", "p", "id3", "carol"⟩ }
            : Storage).Get k = some ⟨"c@x.io", "p", "id3", "carol"⟩) ∧
      (sampleStore.IsNil = true →
        Storage.Add sampleLib diskFull sampleStore ∅ "c@x.io" "p" "id3" "carol" = none) ∧
      (∀ acc, sampleStore.Get "bob" = some acc →
        ∃ fs1, Storage.Remove sampleLib diskFull sampleStore ∅ "bob"
            = (true, { File := sampleStore.File, Accounts := sampleStore.Accounts.erase "bob" },
                fs1) ∧
          ({ File := sampleStore.File, Accounts := sampleStore.Accounts.erase "bob" }
            : Storage).Get "bob" = none) :=
  ⟨(by rintro ⟨h, _, _⟩; cases h), rfl, (by decide), (by decide), (by decide),
    save_failure_keeps_change sampleLib diskFull sampleStore ∅ "c@x.io" "p" "id3" "carol" "bob"
      (by rintro ⟨h, _, _⟩; cases h)⟩

/-- C11 as stated fails for `Remove`: on the sample store, with a disk that cannot take the
temporary file, the `Save` made by `Remove("bob")` fails, yet `Remove` returns `true`, the
very value it returns when `Save` succeeds; the record is gone from memory while no
accounts file was written. -/
theorem remove_drops_save_error :
    (Storage.Save sampleLib diskFull
        { File := sampleStore.File, Accounts := sampleStore.Accounts.erase "bob" } ∅).1
      = some "no space left on device" ∧
    (Storage.Remove sampleLib diskFull sampleStore ∅ "bob").1 = true ∧
    (Storage.Remove sampleLib diskFull sampleStore ∅ "bob").1
      = (Storage.Remove sampleLib SaveFaults.ok sampleStore ∅ "bob").1 ∧
    (Storage.Remove sampleLib diskFull sampleStore ∅ "bob").2.1.Get "bob" = none ∧
    (Storage.Remove sampleLib diskFull sampleStore ∅ "bob").2.2.lookup "email_accounts.json"
      = none := by
  decide

/-! ## `MigrateFromSingle` -/

/-- On an empty store `Add` with the nickname `Default` chooses the key `Default`. -/
theorem chooseKey_default_empty (s : Storage) (address : String) (hempty : s.Accounts = ∅) :
    s.chooseKey address "Default" = some "Default" := by
  have hb : baseKey address "Default" = "Default" := by
    have : TrimSpace "Default" ≠ "" := by decide
    simp [baseKey, this]
  simp only [Storage.chooseKey, hb, hempty]
  rfl

/-- Where the map of the store is allocated, the migration does what is expected of it. For
every legacy single-account file that decodes to a record whose address and password are
both non-empty, `MigrateFromSingle` on an empty store whose map is allocated returns true,
whatever `Save` does, and leaves the store holding exactly one record: it is filed under
`Default`, its nickname is `Default`, its address and password are those of the legacy
record, and its account id is the one of the legacy record (the empty string when the
record has none). -/
theorem migrate_from_single (L : JSONLib) (io : SaveFaults) (s : Storage) (fs : FS)
    (b : String) (m : LegacyMap) (address password : String)
    (hempty : s.Accounts = ∅) (hmap : s.IsNil = false)
    (hfile : fs.lookup "email_account.json" = some b) (hdec : unmarshalLegacy b = .ok m)
    (haddr : m.lookup "address" = some address) (hpw : m.lookup "password" = some password)
    (haddr0 : address ≠ "") (hpw0 : password ≠ "") :
    ∃ s1 fs1,
      Storage.MigrateFromSingle L io s fs = some (true, s1, fs1) ∧
      s1.Accounts.entries.length = 1 ∧
      s1.Get "Default"
        = some ⟨address, password, (m.lookup "account_id").getD "", "Default"⟩ ∧
      (∀ k acc, s1.Get k = some acc →
        k = "Default" ∧ acc.Nickname = "Default" ∧ acc.Address = address ∧
        acc.Password = password ∧ acc.AccountID = (m.lookup "account_id").getD "") := by
  have hk := chooseKey_default_empty s address hempty
  have ha : legacyField m "address" = address := by simp [legacyField, haddr]
  have hp : legacyField m "password" = password := by simp [legacyField, hpw]
  have hadd := Add_of_chooseKey L io s fs address password (legacyField m "account_id")
    "Default" "Default" hk hmap
  have hcond : ¬ (address = "" ∨ password = "") := by
    rintro (h | h)
    · exact haddr0 h
    · exact hpw0 h
  rw [hempty] at hadd
  refine ⟨{ File := s.File,
            Accounts := (∅ : AccountMap).insert "Default"
              (Account.mk address password (legacyField m "account_id") "Default") },
    (Storage.Save L io
      { File := s.File,
        Accounts := (∅ : AccountMap).insert "Default"
          (Account.mk address password (legacyField m "account_id") "Default") } fs).2,
    ?_, ?_, AList.lookup_insert _, ?_⟩
  · simp only [Storage.MigrateFromSingle, hfile, hdec, ha, hp, hcond, if_false, hadd]
  · rfl
  · intro k acc hget
    by_cases hkd : k = "Default"
    · subst hkd
      simp only [Storage.Get, AList.lookup_insert, Option.some.injEq] at hget
      subst hget
      exact ⟨rfl, rfl, rfl, rfl, rfl⟩
    · simp only [Storage.Get, AList.lookup_insert_ne hkd] at hget
      exact absurd hget (by simp)

/-- The migration scenario: the legacy file holds the text of the scenario, no accounts file
exists, and the store is the one `NewStorage` builds then, with an allocated map; the text
decodes to the address `a@b.c`, the password `p` and the account id `1`, and the run of
`MigrateFromSingle` returns true with the store holding the one record `Default`, whose
nickname is `Default` and whose address is `a@b.c`. -/
theorem migrate_scenario :
    legacyDisk.lookup "email_accounts.json" = none ∧
    (NewStorage sampleLib "email_accounts.json" legacyDisk).Accounts = ∅ ∧
    (NewStorage sampleLib "email_accounts.json" legacyDisk).IsNil = false ∧
    legacyDisk.lookup "email_account.json"
      = some "\x7b\"address\":\"a@b.c\",\"password\":\"p\",\"account_id\":\"1\"\x7d" ∧
    unmarshalLegacy legacyText = .ok legacyRecord ∧
    (legacyRecord.lookup "address", legacyRecord.lookup "password",
        legacyRecord.lookup "account_id", legacyRecord.entries.length)
      = (some "a@b.c", some "p", some "1", 3) ∧
    (Storage.MigrateFromSingle sampleLib SaveFaults.ok
        (NewStorage sampleLib "email_accounts.json" legacyDisk) legacyDisk).map
      (fun r => (r.1, r.2.1.Accounts.entries.length, r.2.1.Get "Default"))
      = some (true, 1, some ⟨"a@b.c", "p", "1", "Default"⟩) ∧
    ∃ s1 fs1,
      Storage.MigrateFromSingle sampleLib SaveFaults.ok
        (NewStorage sampleLib "email_accounts.json" legacyDisk) legacyDisk
        = some (true, s1, fs1) ∧
      s1.Accounts.entries.length = 1 ∧
      s1.Get "Default" = some ⟨"a@b.c", "p", "1", "Default"⟩ ∧
      (∀ k acc, s1.Get k = some acc →
        k = "Default" ∧ acc.Nickname = "Default" ∧ acc.Address = "a@b.c" ∧
        acc.Password = "p" ∧ acc.AccountID = "1") :=
  ⟨(by decide), rfl, rfl, (by decide), rfl, (by decide), (by decide),
    migrate_from_single sampleLib SaveFaults.ok
      (NewStorage sampleLib "email_accounts.json" legacyDisk) legacyDisk legacyText
      legacyRecord "a@b.c" "p" rfl rfl (by decide) rfl (by decide) (by decide)
      (by decide) (by decide)⟩

/-- C12 at the input on which the code fails. The store is the empty store whose map is nil,
which `NewStorage` builds when the accounts file holds the JSON text `null` (the decoder
then reports no error and leaves the map nil, where the other paths of `Load` allocate an
empty map); the legacy file is the one of the scenario, with the address `a@b.c` and the
password `p`. `MigrateFromSingle` does not return true with one record `Default` in the
store: it does not return at all, whatever `Save` would do, because the assignment in
`Add` panics on the nil map. -/
theorem migrate_panics_on_nil_map :
    nilStore.Accounts = ∅ ∧ nilStore.Accounts.entries.length = 0 ∧
    (∀ key, nilStore.Get key = none) ∧
    (∀ L : JSONLib, L.decodeAccounts "null" (some ∅) = .ok none →
      NewStorage L "email_accounts.json" (legacyDisk.insert "email_accounts.json" "null")
        = nilStore) ∧
    legacyDisk.lookup "email_account.json" = some legacyText ∧
    (unmarshalLegacy legacyText).toOption.map
        (fun m => (m.lookup "address", m.lookup "password"))
      = some (some "a@b.c", some "p") ∧
    Storage.MigrateFromSingle sampleLib SaveFaults.ok nilStore legacyDisk = none ∧
    Storage.MigrateFromSingle sampleLib diskFull nilStore legacyDisk = none :=
  ⟨rfl, rfl, fun _ => rfl,
    fun L h => (NewStorage_nil L "email_accounts.json" "null"
      (legacyDisk.insert "email_accounts.json" "null") (AList.lookup_insert _) h).1,
    (by decide), (by decide), rfl, rfl⟩

end MailTM
